import Mathlib

/-!
# Verification of the Negotiator core (shallow embedding)

This file embeds the deterministic core of the Negotiator repository in Lean 4:
the term extractors (`extraction.py`), the agreement detector (`agreement.py`
and the variant in `app.py`), the deal-parameter generator
(`deal_generator.py`), the negotiation evaluator (`evaluator.py`) and the
response post-processor (`app.py`).

Modelling conventions:
* Python strings are modelled as `List Char` (ASCII behaviour of `lower`,
  `strip`, `split`); the public extractor inputs are `Option String`
  (Python `None` is `none`, and `if not text` treats the empty string as
  falsy).
* Python `float` values are modelled as exact rationals `ℚ`; `round(x, n)`
  is round-half-even on the exact rational, and `int(...)` truncates toward
  zero.  Python `int` is `ℤ` / `ℕ`.
* Fallible code (division that can raise `ZeroDivisionError`) returns
  `Option`.
* Regular-expression searches are modelled by explicit left-to-right scans
  with ordered backtracking candidates, mirroring the leftmost-match,
  greedy-with-backtracking semantics of the concrete patterns that appear
  in the source.
-/

namespace Negotiator

/-! ## Character and string primitives -/

/-- ASCII lower-casing of one character (Python `str.lower` on ASCII text). -/
def pyLowerChar (c : Char) : Char :=
  if 65 ≤ c.toNat ∧ c.toNat ≤ 90 then Char.ofNat (c.toNat + 32) else c

/-- Python `str.lower` on ASCII text. -/
def pyLower (s : List Char) : List Char := s.map pyLowerChar

/-- Python `\s` / `str.split()` whitespace class (ASCII part). -/
def isWs (c : Char) : Bool :=
  c == ' ' || c == '\t' || c == '\n' || c == '\r' ||
  c == Char.ofNat 11 || c == Char.ofNat 12

/-- Decimal digit test (`[0-9]` / `\d` on ASCII text). -/
def isDigitCh (c : Char) : Bool := '0' ≤ c && c ≤ '9'

/-- Python regex word character `\w` (ASCII part), used for `\b`. -/
def isWordCh (c : Char) : Bool :=
  isDigitCh c || ('a' ≤ c && c ≤ 'z') || ('A' ≤ c && c ≤ 'Z') || c == '_'

/-- Python substring containment `needle in hay`. -/
def containsSub (needle : List Char) : List Char → Bool
  | [] => needle.isEmpty
  | c :: t => needle.isPrefixOf (c :: t) || containsSub needle t

/-- Maximal run of characters satisfying `p` at the front: `(run, rest)`. -/
def grabRun (p : Char → Bool) : List Char → List Char × List Char
  | [] => ([], [])
  | c :: cs =>
    if p c then
      let r := grabRun p cs
      (c :: r.1, r.2)
    else ([], c :: cs)

/-- Numeric value of a digit character. -/
def digitVal (c : Char) : ℕ := c.toNat - 48

/-- Value of a digit string read in base 10. -/
def digitsVal (l : List Char) : ℕ := l.foldl (fun a c => 10 * a + digitVal c) 0

/-- Decimal rendering of a natural number (digit characters). -/
def natCharsF (fuel n : ℕ) : List Char :=
  match fuel with
  | 0 => [Char.ofNat (48 + n % 10)]
  | fuel + 1 =>
    if n < 10 then [Char.ofNat (48 + n)]
    else natCharsF fuel (n / 10) ++ [Char.ofNat (48 + n % 10)]

def natChars (n : ℕ) : List Char := natCharsF n n

/-- Python truthiness test `not text` for an optional string (`None` and
the empty string are falsy). -/
def strFalsy : Option String → Bool
  | none => true
  | some s => s.data.isEmpty

/-! ## Numeric primitives -/

/-- Round half to even, to an integer (Python `round(x)` on an exact value). -/
def rhe (y : ℚ) : ℤ :=
  let f := ⌊y⌋
  let d := y - (f : ℚ)
  if d < 1/2 then f else if 1/2 < d then f + 1 else if f % 2 = 0 then f else f + 1

/-- Python `round(x, 2)` on the exact rational value. -/
def round2 (x : ℚ) : ℚ := (rhe (x * 100) : ℚ) / 100

/-- Python `round(x, 1)` on the exact rational value. -/
def round1 (x : ℚ) : ℚ := (rhe (x * 10) : ℚ) / 10

/-- Python `int(q)`: truncation toward zero. -/
def pyTrunc (q : ℚ) : ℤ := if 0 ≤ q then ⌊q⌋ else -⌊-q⌋

/-- Python division, which raises `ZeroDivisionError` on a zero divisor. -/
def pydiv (a b : ℚ) : Option ℚ := if b = 0 then none else some (a / b)

/-- Parse a decimal literal `digits(.digits?)?` exactly (Python `float(s)`
on the strings produced by the extraction regexes). -/
def parseDecimal (l : List Char) : ℚ :=
  let p := grabRun isDigitCh l
  let intVal : ℚ := (digitsVal p.1 : ℕ)
  match p.2 with
  | c :: fr =>
    if c = '.' then
      intVal + ((digitsVal (grabRun isDigitCh fr).1 : ℕ) : ℚ) /
        ((10 : ℚ) ^ (grabRun isDigitCh fr).1.length)
    else intVal
  | [] => intVal

/-- Drop the thousands separators: Python `num_str.replace(',', '')`. -/
def stripCommas (l : List Char) : List Char := l.filter (fun c => !(c == ','))

/-! ## `extraction.py`: the three term extractors -/

/-- Attempt of the regex `\$\s*([0-9][0-9,]*(?:\.\d+)?)` directly after a
`'$'`: skip whitespace, require a digit, greedily take `[0-9,]*`, then an
optional fraction `\.\d+`.  Returns the captured group. -/
def priceTail (l : List Char) : Option (List Char) :=
  match (grabRun isWs l).2 with
  | [] => none
  | c :: cs =>
    if isDigitCh c then
      let p := grabRun (fun d => isDigitCh d || d == ',') cs
      match p.2 with
      | c2 :: r2 =>
        if c2 = '.' then
          let fr := (grabRun isDigitCh r2).1
          if fr.isEmpty then some (c :: p.1) else some (c :: p.1 ++ '.' :: fr)
        else some (c :: p.1)
      | [] => some (c :: p.1)
    else none

/-- Left-to-right scan of `re.search(r'\$\s*([0-9][0-9,]*(?:\.\d+)?)', text)`:
a match can only start at a `'$'`; on failure the search resumes at the next
position. -/
def priceScan : List Char → Option ℚ
  | [] => none
  | c :: cs =>
    if c == '$' then
      match priceTail cs with
      | some g => some (parseDecimal (stripCommas g))
      | none => priceScan cs
    else priceScan cs

/-- `extract_price` from `extraction.py` (also duplicated in `app.py` and
`agreement.py`). -/
def extract_price (t : Option String) : Option ℚ :=
  if strFalsy t then none else priceScan (t.getD "").toList

/-- Left-to-right scan of `re.search(r'(\d+)\s*days?', text.lower())`.
At a digit the maximal digit run must be followed by `\s*` and `day`
(shorter backtracked runs are followed by a digit and can never match
`\s*d`); otherwise the search resumes one position further. -/
def deliveryScan : List Char → Option ℕ
  | [] => none
  | c :: cs =>
    if isDigitCh c then
      let p := grabRun isDigitCh cs
      if ['d', 'a', 'y'].isPrefixOf (grabRun isWs p.2).2 then
        some (digitsVal (c :: p.1))
      else deliveryScan cs
    else deliveryScan cs

/-- `extract_delivery` from `extraction.py`. -/
def extract_delivery (t : Option String) : Option ℤ :=
  if strFalsy t then none
  else (deliveryScan (pyLower (t.getD "").toList)).map (fun n => (n : ℤ))

/-! Backtracking candidates for the volume regexes.  Each candidate is
`(captured, rest)`; lists are ordered by the regex engine's preference
(greedy, leftmost alternative first). -/

/-- Candidates of `\d{1,3}` (greedy: three digits first). -/
def d13 (l : List Char) : List (List Char × List Char) :=
  let run := (grabRun isDigitCh l).1
  let k := min 3 run.length
  (List.range k).map (fun j => (l.take (k - j), l.drop (k - j)))

/-- Candidates of `(?:,\d{3})*` (greedy: longest repetition first). -/
def commaGroups : List Char → List (List Char × List Char)
  | ',' :: a :: b :: c :: rest =>
    if isDigitCh a && isDigitCh b && isDigitCh c then
      ((commaGroups rest).map (fun gr => (',' :: a :: b :: c :: gr.1, gr.2))) ++
        [([], ',' :: a :: b :: c :: rest)]
    else [([], ',' :: a :: b :: c :: rest)]
  | l => [([], l)]

/-- Candidates of `\d+` (greedy). -/
def dPlus (l : List Char) : List (List Char × List Char) :=
  let n := (grabRun isDigitCh l).1.length
  (List.range n).map (fun j => (l.take (n - j), l.drop (n - j)))

/-- Candidates of `\d*` (greedy, includes the empty match). -/
def dStar (l : List Char) : List (List Char × List Char) :=
  let n := (grabRun isDigitCh l).1.length
  (List.range (n + 1)).map (fun j => (l.take (n - j), l.drop (n - j)))

/-- Candidates of `\.?` (greedy: with the dot first). -/
def dotOpt : List Char → List (List Char × List Char)
  | '.' :: rest => [(['.'], rest), ([], '.' :: rest)]
  | l => [([], l)]

/-- Candidates of `\s*` (greedy). -/
def wsStar (l : List Char) : List (List Char × List Char) :=
  let n := (grabRun isWs l).1.length
  (List.range (n + 1)).map (fun j => (l.take (n - j), l.drop (n - j)))

/-- Sequencing of candidate lists (depth-first, preserving preference order). -/
def seqCand (xs : List (List Char × List Char))
    (f : List Char → List (List Char × List Char)) :
    List (List Char × List Char) :=
  xs.flatMap (fun gr => (f gr.2).map (fun gr2 => (gr.1 ++ gr2.1, gr2.2)))

/-- Candidates of the alternative `\d{1,3}(?:,\d{3})*`. -/
def numAltA (l : List Char) : List (List Char × List Char) :=
  seqCand (d13 l) commaGroups

/-- Candidates of the alternative `\d+\.?\d*`. -/
def numAltB (l : List Char) : List (List Char × List Char) :=
  seqCand (seqCand (dPlus l) dotOpt) dStar

/-- Candidates of the group `(\d{1,3}(?:,\d{3})*|\d+\.?\d*)`. -/
def numAlt (l : List Char) : List (List Char × List Char) :=
  numAltA l ++ numAltB l

/-- Word boundary `\b` after a word character: the rest must not start with
a word character. -/
def atBoundary : List Char → Bool
  | [] => true
  | c :: _ => !isWordCh c

/-- Can `\s*(alt₁|alt₂|…)\b` consume a prefix of `l`?  (Unit alternatives
given in the regex's preference order.) -/
def unitTail (units : List (List Char)) (l : List Char) : Bool :=
  (wsStar l).any (fun gr =>
    units.any (fun u => u.isPrefixOf gr.2 && atBoundary (gr.2.drop u.length)))

/-- Leftmost match of `(numeric-group)\s*(units…)\b`, returning group 1. -/
def volPat (units : List (List Char)) : List Char → Option (List Char)
  | [] => none
  | c :: cs =>
    match (numAlt (c :: cs)).find? (fun gr => unitTail units gr.2) with
    | some gr => some gr.1
    | none => volPat units cs

/-- Leftmost match of `(\d{1,3}(?:,\d{3})*|\d+)`, returning group 1. -/
def volPat3 : List Char → Option (List Char)
  | [] => none
  | c :: cs =>
    match (numAltA (c :: cs) ++ dPlus (c :: cs)).head? with
    | some gr => some gr.1
    | none => volPat3 cs

/-- `extract_volume` from `extraction.py`: `(thousand|k)` shorthand first,
then explicit `units?`, then a bare number if a volume-context keyword is
present. -/
def extract_volume (t : Option String) : Option ℤ :=
  if strFalsy t then none else
  let txt := pyLower (t.getD "").toList
  match volPat ["thousand".toList, ['k']] txt with
  | some g => some (pyTrunc (parseDecimal (stripCommas g) * 1000))
  | none =>
  match volPat ["units".toList, "unit".toList] txt with
  | some g => some (pyTrunc (parseDecimal (stripCommas g)))
  | none =>
  if ["units", "order", "volume", "quantity"].any
      (fun kw => containsSub kw.toList txt) then
    match volPat3 txt with
    | some g => some (pyTrunc (parseDecimal (stripCommas g)))
    | none => none
  else none

/-! ## `deal_generator.py`: parameter generation

`random.uniform(a, b)` draws are modelled as universally quantified rational
parameters; `random.uniform` guarantees `a ≤ N ≤ b`, so every seed produces
draws satisfying the range hypotheses of the theorems below.  The generator
itself is deterministic in the draws. -/

/-- Three negotiation anchor levels. -/
structure Triple (α : Type) where
  opening : α
  target : α
  reservation : α
deriving Repr, DecidableEq

/-- Volume tier constants of `deal_generator.py`. -/
structure VolumeTiers where
  standard : ℤ
  tier_1_threshold : ℤ
  tier_1_discount : ℚ
  tier_2_threshold : ℤ
  tier_2_discount : ℚ
deriving Repr, DecidableEq

/-- Deal parameters (the evaluator only reads `price` and `delivery`). -/
structure DealParams where
  price : Triple ℚ
  delivery : Triple ℤ
deriving Repr, DecidableEq

/-! The price pipeline of `generate_deal_parameters`, stage by stage in the
order of assignment in the source: draw (`u ↦ random.uniform(5, 30)`), two
reduction steps (`r1 ↦ random.uniform(0.15, 0.25)`,
`r2 ↦ random.uniform(0.10, 0.15)`), two minimum-gap repairs (the second
compares against the repaired target), and the reservation floor. -/

/-- `opening_price = round(random.uniform(5, 30) * 10, 2)`. -/
def gpOpening (u : ℚ) : ℚ := round2 (u * 10)

/-- `target_price = round(opening_price * (1 - price_reduction_1), 2)`. -/
def gpTarget0 (u r1 : ℚ) : ℚ := round2 (gpOpening u * (1 - r1))

/-- `reservation_price = round(target_price * (1 - price_reduction_2), 2)`
(computed before the target repair). -/
def gpRes0 (u r1 r2 : ℚ) : ℚ := round2 (gpTarget0 u r1 * (1 - r2))

/-- `min_reservation = round(opening_price * 0.50, 2)`. -/
def gpMinRes (u : ℚ) : ℚ := round2 (gpOpening u * (1/2))

/-- Target repair of `deal_generator.py`: subtract the flat minimum gap. -/
def gpbTarget (u r1 : ℚ) : ℚ :=
  if gpOpening u - 5 ≤ gpTarget0 u r1 then gpOpening u - 5 else gpTarget0 u r1

/-- Reservation repair of `deal_generator.py`. -/
def gpbRes1 (u r1 r2 : ℚ) : ℚ :=
  if gpbTarget u r1 - 5 ≤ gpRes0 u r1 r2 then gpbTarget u r1 - 5 else gpRes0 u r1 r2

/-- Reservation floor pass (`max(reservation_price, min_reservation)`). -/
def gpbRes (u r1 r2 : ℚ) : ℚ := max (gpbRes1 u r1 r2) (gpMinRes u)

/-- Price triple of `deal_generator.py::generate_deal_parameters`. -/
def genPriceB (u r1 r2 : ℚ) : Triple ℚ := ⟨gpOpening u, gpbTarget u r1, gpbRes u r1 r2⟩

/-- `opening_delivery = int(round(random.uniform(4, 10) * 10))`. -/
def gdOpening (u : ℚ) : ℤ := rhe (u * 10)

/-- `target_delivery = int(round(opening_delivery * (1 - delivery_reduction_1)))`. -/
def gdTarget0 (u r1 : ℚ) : ℤ := rhe ((gdOpening u : ℚ) * (1 - r1))

/-- `reservation_delivery = int(round(target_delivery * (1 - delivery_reduction_2)))`. -/
def gdRes0 (u r1 r2 : ℚ) : ℤ := rhe ((gdTarget0 u r1 : ℚ) * (1 - r2))

/-- Delivery target repair of `deal_generator.py` (flat 3-day gap). -/
def gdbTarget (u r1 : ℚ) : ℤ :=
  if gdOpening u - 3 ≤ gdTarget0 u r1 then gdOpening u - 3 else gdTarget0 u r1

/-- Delivery reservation repair of `deal_generator.py`. -/
def gdbRes (u r1 r2 : ℚ) : ℤ :=
  if gdbTarget u r1 - 3 ≤ gdRes0 u r1 r2 then gdbTarget u r1 - 3 else gdRes0 u r1 r2

/-- Delivery triple of `deal_generator.py::generate_deal_parameters`. -/
def genDeliveryB (u r1 r2 : ℚ) : Triple ℤ := ⟨gdOpening u, gdbTarget u r1, gdbRes u r1 r2⟩

/-- `generate_deal_parameters` from `deal_generator.py`, as a function of the
six `random.uniform` draws. -/
def generate_deal_parameters (up r1p r2p ud r1d r2d : ℚ) : DealParams :=
  ⟨genPriceB up r1p r2p, genDeliveryB ud r1d r2d⟩

/-- The constant volume block returned alongside the triples. -/
def generatedVolume : VolumeTiers := ⟨10000, 20000, 5/100, 50000, 8/100⟩

/-- Target repair of the `app.py` copy: rounded percentage-based gap. -/
def gpaTarget (u r1 : ℚ) : ℚ :=
  if gpOpening u - 5 ≤ gpTarget0 u r1 then
    round2 (gpOpening u - max 5 (gpOpening u * (15/100)))
  else gpTarget0 u r1

/-- Reservation repair of the `app.py` copy. -/
def gpaRes1 (u r1 r2 : ℚ) : ℚ :=
  if gpaTarget u r1 - 5 ≤ gpRes0 u r1 r2 then
    round2 (gpaTarget u r1 - max 5 (gpaTarget u r1 * (10/100)))
  else gpRes0 u r1 r2

/-- Reservation floor pass of the `app.py` copy. -/
def gpaRes (u r1 r2 : ℚ) : ℚ := max (gpaRes1 u r1 r2) (gpMinRes u)

/-- Price triple of the `app.py` copy of `generate_deal_parameters`. -/
def genPriceA (u r1 r2 : ℚ) : Triple ℚ := ⟨gpOpening u, gpaTarget u r1, gpaRes u r1 r2⟩

/-- Delivery target repair of the `app.py` copy: hard floor of 5 days,
truncating percentage gap. -/
def gdaTarget (u r1 : ℚ) : ℤ :=
  if gdOpening u - 3 ≤ gdTarget0 u r1 then
    max 5 (gdOpening u - max 3 (pyTrunc ((gdOpening u : ℚ) * (15/100))))
  else gdTarget0 u r1

/-- Delivery reservation repair of the `app.py` copy: hard floor of 3 days. -/
def gdaRes (u r1 r2 : ℚ) : ℤ :=
  if gdaTarget u r1 - 3 ≤ gdRes0 u r1 r2 then
    max 3 (gdaTarget u r1 - max 3 (pyTrunc ((gdaTarget u r1 : ℚ) * (10/100))))
  else gdRes0 u r1 r2

/-- Delivery triple of the `app.py` copy of `generate_deal_parameters`. -/
def genDeliveryA (u r1 r2 : ℚ) : Triple ℤ := ⟨gdOpening u, gdaTarget u r1, gdaRes u r1 r2⟩

/-- The `app.py` copy of `generate_deal_parameters`. -/
def generate_deal_parameters_app (up r1p r2p ud r1d r2d : ℚ) : DealParams :=
  ⟨genPriceA up r1p r2p, genDeliveryA ud r1d r2d⟩

/-! ## `agreement.py`: the agreement detector (pure service version) -/

/-- One transcript entry (`{role, content}`). -/
structure Message where
  role : String
  content : String
deriving Repr, DecidableEq

/-- An apostrophe character, for keyword strings that contain one. -/
def apoc : Char := Char.ofNat 39

/-- The agreement-signal keywords of `validate_agreement` (the list in the
source contains "deal" twice). -/
def agreement_keywords : List String :=
  ["agree", "agreed", "deal", "accept", "acceptable", "works for me",
   "sounds good", "confirmed", "yes", "okay that works", "perfect",
   "deal", "let" ++ apoc.toString ++ "s do it", "that works", "i accept"]

/-- `any(keyword in content.lower() for keyword in agreement_keywords)`. -/
def hasAgreementKeyword (content : String) : Bool :=
  agreement_keywords.any (fun k => containsSub k.toList (pyLower content.data))

/-- The `agreed_terms` record `{"price", "delivery", "volume"}`. -/
structure AgreedTerms where
  price : Option ℚ
  delivery : Option ℤ
  volume : Option ℤ
deriving Repr, DecidableEq

/-- The initial all-`None` terms. -/
def noTerms : AgreedTerms := ⟨none, none, none⟩

/-- `sum(1 for x in (price, delivery, volume) if x is not None)`. -/
def countPresent (t : AgreedTerms) : ℕ :=
  (if t.price.isSome then 1 else 0) + (if t.delivery.isSome then 1 else 0) +
    (if t.volume.isSome then 1 else 0)

/-- Run all three extractors on one message content. -/
def extractTriple (content : String) : AgreedTerms :=
  ⟨extract_price (some content), extract_delivery (some content),
   extract_volume (some content)⟩

/-- `[k for k, v in agreed_terms.items() if v is None]` (insertion order
`price`, `delivery`, `volume`). -/
def missingOf (t : AgreedTerms) : List String :=
  (if t.price.isSome then [] else ["price"]) ++
    (if t.delivery.isSome then [] else ["delivery"]) ++
    (if t.volume.isSome then [] else ["volume"])

/-- Return value of `validate_agreement`: `(is_valid, missing_terms, agreed_terms)`. -/
structure ValidationResult where
  is_valid : Bool
  missing_terms : List String
  agreed_terms : AgreedTerms
deriving Repr, DecidableEq

/-- The fall-through return `(False, ["price", "delivery", "volume"], all-None)`. -/
def noAgreement : ValidationResult := ⟨false, ["price", "delivery", "volume"], noTerms⟩

/-- Package resolved terms the way every return site of `validate_agreement`
does: `missing_terms` lists the `None` fields and `is_valid = (missing == [])`. -/
def mkResult (t : AgreedTerms) : ValidationResult :=
  ⟨(missingOf t).isEmpty, missingOf t, t⟩

/-- Body of the service `validate_agreement` once the accepting buyer message
`cur` (predecessor `prev`) is found: buyer terms if at least two are present,
else the preceding seller proposal if it has at least two, else all-`None`. -/
def resolveTermsB (cur prev : Message) : AgreedTerms :=
  let userT := extractTriple cur.content
  if 2 ≤ countPresent userT then userT
  else if prev.role == "assistant" && decide (2 ≤ countPresent (extractTriple prev.content)) then
    extractTriple prev.content
  else noTerms

/-- The backward loop `for i in range(len(h) - 1, 0, -1)` of the service
`validate_agreement`: index `0` is never examined as the current message. -/
def validateLoopB (h : List Message) : ℕ → ValidationResult
  | 0 => noAgreement
  | i + 1 =>
    match h[i + 1]?, h[i]? with
    | some cur, some prev =>
      if cur.role == "user" && hasAgreementKeyword cur.content then
        mkResult (resolveTermsB cur prev)
      else validateLoopB h i
    | _, _ => validateLoopB h i

/-- `validate_agreement` from `backend/app/services/agreement.py`. -/
def validate_agreement (h : List Message) : ValidationResult :=
  validateLoopB h (h.length - 1)

/-! ## `app.py::validate_agreement` with `_find_nearest_proposal_before`

The `app.py` variant adds a backward search for an earlier seller proposal;
that search writes a `_cached_extracts` entry into each assistant message it
examines (`hasattr` on a `dict` is always `False`, so the entry is
(re)written unconditionally).  The mutation is modelled by threading the
transcript state: message entries carry an optional `cached` field and the
functions return the updated transcript. -/

/-- A transcript entry of the `app.py` variant, with the mutable
`_cached_extracts` slot. -/
structure MessageA where
  role : String
  content : String
  cached : Option AgreedTerms := none
deriving Repr, DecidableEq

/-- Forget the derived cache slot (the persisted part of an entry). -/
def stripCache (m : MessageA) : Message := ⟨m.role, m.content⟩

/-- `msg['_cached_extracts'] = {...}` at index `j`. -/
def setCache (h : List MessageA) (j : ℕ) (t : AgreedTerms) : List MessageA :=
  match h[j]? with
  | some m => h.set j { m with cached := some t }
  | none => h

/-- `_find_nearest_proposal_before(history, idx)`: scan `j = idx-1 … 0`; on
each assistant message recompute the extracts, cache them on the entry, and
return them together with `j` once at least two are present.  Fuel `n`
processes indices `n-1 … 0`. -/
def findNearestLoop (h : List MessageA) : ℕ → Option (AgreedTerms × ℕ) × List MessageA
  | 0 => (none, h)
  | j + 1 =>
    match h[j]? with
    | some m =>
      if m.role == "assistant" then
        let t := extractTriple m.content
        let h2 := setCache h j t
        if 2 ≤ countPresent t then (some (t, j), h2)
        else findNearestLoop h2 j
      else findNearestLoop h j
    | none => findNearestLoop h j

/-- Resolution step of the `app.py` `validate_agreement` at accepting index
`i` (message `cur`, predecessor `prev`): buyer terms, else immediately
preceding seller proposal, else (exactly when `agreed_terms` is still
all-`None`) the nearest earlier proposal found by the backward search. -/
def resolveTermsA (h : List MessageA) (i : ℕ) (cur prev : MessageA) :
    ValidationResult × List MessageA :=
  let userT := extractTriple cur.content
  if 2 ≤ countPresent userT then (mkResult userT, h)
  else
    let prevT := extractTriple prev.content
    if prev.role == "assistant" && decide (2 ≤ countPresent prevT) then
      (mkResult prevT, h)
    else
      match findNearestLoop h i with
      | (some (t, _), h2) => (mkResult t, h2)
      | (none, h2) => (mkResult noTerms, h2)

/-- The backward loop of the `app.py` `validate_agreement`. -/
def validateLoopA (h : List MessageA) : ℕ → ValidationResult × List MessageA
  | 0 => (noAgreement, h)
  | i + 1 =>
    match h[i + 1]?, h[i]? with
    | some cur, some prev =>
      if cur.role == "user" && hasAgreementKeyword cur.content then
        resolveTermsA h (i + 1) cur prev
      else validateLoopA h i
    | _, _ => validateLoopA h i

/-- `validate_agreement` from `app.py`, returning the result together with
the (possibly mutated) transcript. -/
def validate_agreement_app (h : List MessageA) : ValidationResult × List MessageA :=
  validateLoopA h (h.length - 1)

/-! ## `evaluator.py`: the negotiation evaluator

Scores kept as integers in Python (`professionalism`, `process`,
`creativity`) are modelled as `ℤ` (`round(n, 1)` is the identity on
integers); float scores are `ℚ`.  The result structure keeps the fields the
claims are about (per-metric scores, overall score and grade, rounds); the
feedback text and the analysis sub-report are out of scope here. -/

/-- `[m["content"] for m in history if m["role"] == "user"]`. -/
def userMessages (h : List Message) : List String :=
  (h.filter (fun m => m.role == "user")).map (fun m => m.content)

/-- Trade-off keyword list of `_score_trade_off_strategy`. -/
def trade_off_keywords : List String :=
  ["if you", "in exchange", "trade", "volume", "order more",
   "larger order", "bulk", "quantity", "conditional", "deal",
   "discount", "lower price if", "faster delivery if"]

/-- Number of buyer messages containing at least one trade-off keyword
(the inner `break` counts each message at most once). -/
def tradeOffCount (h : List Message) : ℕ :=
  (userMessages h).countP
    (fun msg => trade_off_keywords.any (fun k => containsSub k.toList (pyLower msg.data)))

/-- Number of negotiation rounds: the number of buyer messages. -/
def userRounds (h : List Message) : ℕ := (userMessages h).length

/-- `_score_trade_off_strategy` from `evaluator.py` (`0.5` is exact in
binary floating point, so the comparison is exact). -/
def score_trade_off_strategy (h : List Message) : ℚ :=
  let c := tradeOffCount h
  if c = 0 then 30
  else if c = 1 then 50
  else if 2 ≤ c ∧ (c : ℚ) ≤ (userRounds h : ℚ) * (1/2) then 75
  else 90

/-- The red-flag keywords of `_score_professionalism`, flattened in the
dictionary's iteration order (`rude`, `aggressive`, `unprofessional`,
`uninformed`). -/
def red_flag_keywords : List String :=
  ["stupid", "ridiculous", "unacceptable", "outrageous", "idiot",
   "demand", "must", "have to", "forced to",
   "lol", "omg", "ur", "gonna",
   "no idea", "don" ++ apoc.toString ++ "t know", "clueless"]

/-- The positive indicators of `_score_professionalism` with their bonuses,
in dictionary insertion order. -/
def positive_indicators : List (String × ℤ) :=
  [("please", 5), ("thank", 5), ("appreciate", 5), ("understand", 3),
   ("reasonable", 3), ("flexible", 5), ("partnership", 5), ("professional", 5)]

/-- The red-flag pass: `-10` for each (message, keyword) hit, starting from `s`. -/
def redFlagPass (msgs : List String) (s : ℤ) : ℤ :=
  msgs.foldl
    (fun acc msg =>
      red_flag_keywords.foldl
        (fun a k => if containsSub k.toList (pyLower msg.data) then a - 10 else a) acc)
    s

/-- The bonus pass: `score = min(100, score + bonus)` per (message, indicator) hit. -/
def bonusPass (msgs : List String) (s : ℤ) : ℤ :=
  msgs.foldl
    (fun acc msg =>
      positive_indicators.foldl
        (fun a p => if containsSub p.1.toList (pyLower msg.data) then min 100 (a + p.2) else a)
        acc)
    s

/-- `_score_professionalism` from `evaluator.py`: start at 85, red flags,
capped bonuses, final `max(0, …)`. -/
def score_professionalism (h : List Message) : ℤ :=
  max 0 (bonusPass (userMessages h) (redFlagPass (userMessages h) 85))

/-- Python `len(msg.split())`: number of maximal non-whitespace runs. -/
def wordCount (l : List Char) : ℕ :=
  (l.foldl
    (fun (st : ℕ × Bool) c =>
      if isWs c then (st.1, false) else (if st.2 then st.1 else st.1 + 1, true))
    (0, false)).1

/-- Confirmation keywords of `_score_process_management`. -/
def confirmation_keywords : List String :=
  ["confirm", "agree", "deal", "accept", "correct", "agreed"]

/-- `_score_process_management` from `evaluator.py`.  The mean message
length `sum(..)/len(user_messages)` raises `ZeroDivisionError` when there
are no buyer messages, hence the `Option` result. -/
def score_process_management (h : List Message) : Option ℤ :=
  let msgs := userMessages h
  let s0 : ℤ := 70
  let s1 :=
    if msgs.any (fun m => confirmation_keywords.any (fun k => containsSub k.toList (pyLower m.data)))
    then s0 + 15 else s0
  match pydiv ((msgs.map (fun m => (wordCount m.data : ℚ))).sum) (msgs.length : ℚ) with
  | none => none
  | some avg =>
    let s2 :=
      if 10 ≤ avg ∧ avg ≤ 40 then s1 + 10
      else if 100 < avg then s1 - 10
      else if avg < 5 then s1 - 5
      else s1
    let offers := msgs.countP
      (fun m => containsSub ['$'] m.data || containsSub "day".toList (pyLower m.data))
    let s3 := if (msgs.length : ℚ) * (7/10) ≤ (offers : ℚ) then s2 + 10 else s2
    some (min 100 (max 0 s3))

/-- One step of `re.findall(r'\$?(\d+(?:\.\d{2})?)', msg)` at the current
position, ignoring an optional leading `$`: the greedy digit run, then
`.dd` when exactly followed by two digits.  Returns the captured group and
the rest of the input. -/
def numAt (l : List Char) : Option (List Char × List Char) :=
  let p := grabRun isDigitCh l
  if p.1.isEmpty then none
  else
    match p.2 with
    | '.' :: a :: b :: rest2 =>
      if isDigitCh a && isDigitCh b then some (p.1 ++ ['.', a, b], rest2)
      else some (p.1, '.' :: a :: b :: rest2)
    | rest => some (p.1, rest)

/-- The non-overlapping left-to-right scan of the `findall`, fuelled by the
input length: every recursive call consumes at least one character while the
fuel drops by exactly one, so `numScanF l.length l` never hits the fuel
bound. -/
def numScanF : ℕ → List Char → List (List Char)
  | 0, _ => []
  | _ + 1, [] => []
  | fuel + 1, c :: cs =>
    if c == '$' then
      match numAt cs with
      | some gr => gr.1 :: numScanF fuel gr.2
      | none => numScanF fuel cs
    else
      match numAt (c :: cs) with
      | some gr => gr.1 :: numScanF fuel gr.2
      | none => numScanF fuel cs

/-- All number groups found in a message (`re.findall` group 1 values). -/
def numScan (l : List Char) : List (List Char) := numScanF l.length l

/-- Lexicographic comparison of Python strings (code-point order). -/
def lexLe : List Char → List Char → Bool
  | [], _ => true
  | _ :: _, [] => false
  | a :: as, b :: bs => if a < b then true else if b < a then false else lexLe as bs

/-- Insert into a lexicographically sorted list. -/
def insertSorted (x : List Char) : List (List Char) → List (List Char)
  | [] => [x]
  | y :: ys => if lexLe x y then x :: y :: ys else y :: insertSorted x ys

/-- Python `sorted(o)` for a list of strings. -/
def sortLex (l : List (List Char)) : List (List Char) := l.foldr insertSorted []

/-- Strategy keywords of `_score_creativity_adaptability`. -/
def strategy_keywords : List String :=
  ["alternative", "instead", "different", "volume", "terms", "creative"]

/-- `_score_creativity_adaptability` from `evaluator.py`: neutral 50 with
fewer than two buyer messages, 30 with no numeric offers, otherwise a band
on the ratio of distinct sorted offer tuples, plus a capped bonus when at
least two messages use a strategy keyword. -/
def score_creativity_adaptability (h : List Message) : ℤ :=
  let msgs := userMessages h
  if msgs.length < 2 then 50
  else
    let offers := msgs.filterMap
      (fun m => let ns := numScan m.data; if ns.isEmpty then none else some ns)
    if offers.length = 0 then 30
    else
      let uniq := (offers.map sortLex).dedup.length
      let ur : ℚ := if offers.length = 0 then 0 else (uniq : ℚ) / (offers.length : ℚ)
      let base : ℤ :=
        if 4/5 ≤ ur then 90 else if 3/5 ≤ ur then 75 else if 2/5 ≤ ur then 55 else 35
      let attempts := msgs.countP
        (fun m => strategy_keywords.any (fun k => containsSub k.toList (pyLower m.data)))
      if 2 ≤ attempts then min 100 (base + 15) else base

/-- `_score_deal_quality` from `evaluator.py`.  A falsy `agreed_terms`
(`None` or `{}`) short-circuits to 0; a present record whose price or
delivery is `None` raises `TypeError` in the reduction arithmetic, and a
zero opening level raises `ZeroDivisionError` — both modelled as `none`. -/
def score_deal_quality (params : DealParams) (terms : Option AgreedTerms) : Option ℚ :=
  match terms with
  | none => some 0
  | some t =>
    match t.price, t.delivery with
    | some fp, some fd => do
      let priceRedPct ← (pydiv (params.price.opening - fp) params.price.opening).map (· * 100)
      let priceComp : ℚ :=
        if fp ≤ params.price.target then 95
        else if 15 ≤ priceRedPct then 80
        else if 10 ≤ priceRedPct then 70
        else if 5 ≤ priceRedPct then 50
        else 30
      let dRedPct ← (pydiv ((params.delivery.opening - fd : ℤ) : ℚ) ((params.delivery.opening : ℤ) : ℚ)).map (· * 100)
      let deliveryComp : ℚ :=
        if fd ≤ params.delivery.target then 95
        else if 15 ≤ dRedPct then 80
        else if 10 ≤ dRedPct then 70
        else if 5 ≤ dRedPct then 50
        else 30
      some (round1 (priceComp * (6/10) + deliveryComp * (4/10)))
    | _, _ => none

/-- `GRADE_THRESHOLDS` sorted by value descending, exactly as
`_score_to_grade` iterates them. -/
def gradeThresholdsSorted : List (String × ℚ) :=
  [("A", 90), ("B", 80), ("C", 70), ("D", 60), ("F", 0)]

/-- `_score_to_grade` from `evaluator.py`. -/
def score_to_grade (s : ℚ) : String :=
  match gradeThresholdsSorted.find? (fun p => p.2 ≤ s) with
  | some p => p.1
  | none => "F"

/-- `_calculate_overall_score`: the weighted sum (weights 0.33 / 0.28 /
0.17 / 0.11 / 0.11) rounded to one decimal. -/
def calculate_overall_score (dq st pr pc cr : ℚ) : ℚ :=
  round1 (dq * (33/100) + st * (28/100) + pr * (17/100) + pc * (11/100) + cr * (11/100))

/-- The part of the `evaluate` result the claims are about. -/
structure EvaluationResult where
  deal_quality : ℚ
  trade_off_strategy : ℚ
  professionalism : ℚ
  process_management : ℚ
  creativity_adaptability : ℚ
  overall_score : ℚ
  overall_grade : String
  negotiation_rounds : ℕ
deriving Repr, DecidableEq

/-- `NegotiationEvaluator.evaluate`: all five metric scores, the weighted
overall score and its letter grade.  An exception in any metric propagates
(`none`). -/
def evaluate (h : List Message) (params : DealParams) (terms : Option AgreedTerms) :
    Option EvaluationResult :=
  match score_deal_quality params terms, score_process_management h with
  | some dq, some pc =>
    let st := score_trade_off_strategy h
    let pr : ℚ := (score_professionalism h : ℤ)
    let cr : ℚ := (score_creativity_adaptability h : ℤ)
    let overall := calculate_overall_score dq st pr (pc : ℤ) cr
    some ⟨dq, st, pr, (pc : ℤ), cr, overall, score_to_grade overall, userRounds h⟩
  | _, _ => none

/-! ## `app.py::enforce_concise_response`: the response post-processor -/

/-- The protected business abbreviations (note `LLC` carries no dot). -/
def abbreviations : List String :=
  ["Mr.", "Mrs.", "Ms.", "Dr.", "Inc.", "Ltd.", "Corp.", "Co.", "LLC",
   "etc.", "e.g.", "i.e.", "vs.", "dept.", "approx.", "qty.", "no."]

/-- Python `s.replace(old, new)` (all non-overlapping occurrences, left to
right) for a non-empty pattern; an empty pattern is left untouched (never
used by the callers). -/
def replaceAllF (pat rep : List Char) : ℕ → List Char → List Char
  | _, [] => []
  | 0, l => l
  | fuel + 1, c :: cs =>
    if pat.isPrefixOf (c :: cs) ∧ pat ≠ [] then
      rep ++ replaceAllF pat rep fuel (cs.drop (pat.length - 1))
    else c :: replaceAllF pat rep fuel cs

def replaceAll (pat rep : List Char) (l : List Char) : List Char :=
  replaceAllF pat rep l.length l

/-- Python `s.replace(old, new, 1)` for a non-empty pattern. -/
def replaceFirst (pat rep : List Char) : List Char → List Char
  | [] => []
  | c :: cs =>
    if pat.isPrefixOf (c :: cs) ∧ pat ≠ [] then rep ++ cs.drop (pat.length - 1)
    else c :: replaceFirst pat rep cs

/-- Python `str.strip()` (ASCII whitespace). -/
def pyStrip (l : List Char) : List Char :=
  ((l.dropWhile isWs).reverse.dropWhile isWs).reverse

/-- The placeholder `__ABBR{i}__`. -/
def placeholderA (i : ℕ) : List Char := "__ABBR".toList ++ natChars i ++ "__".toList

/-- The placeholder `__DEC{i}__`. -/
def placeholderD (i : ℕ) : List Char := "__DEC".toList ++ natChars i ++ "__".toList

/-- The abbreviation-protection pass: for each abbreviation present in the
current text, record the placeholder in the (insertion-ordered) map and
replace every occurrence. -/
def abbrPass (t : List Char) : List Char × List (List Char × List Char) :=
  abbreviations.enum.foldl
    (fun st p =>
      let ph := placeholderA p.1
      if containsSub p.2.toList st.1 then
        (replaceAll p.2.toList ph st.1, st.2 ++ [(ph, p.2.toList)])
      else st)
    (t, [])

/-- One match attempt of `((?:\$|\\\$)?\d+\.\d+)` at the current position:
optional `$` or `\$` prefix, digits, dot, digits. -/
def decAt (l : List Char) : Option (List Char × List Char) :=
  let core : List Char → Option (List Char × List Char) := fun m =>
    let p := grabRun isDigitCh m
    if p.1.isEmpty then none
    else
      match p.2 with
      | '.' :: r2 =>
        let f := grabRun isDigitCh r2
        if f.1.isEmpty then none else some (p.1 ++ '.' :: f.1, f.2)
      | _ => none
  match l with
  | '$' :: rest =>
    match core rest with
    | some gr => some ('$' :: gr.1, gr.2)
    | none => none
  | '\\' :: '$' :: rest =>
    match core rest with
    | some gr => some ('\\' :: '$' :: gr.1, gr.2)
    | none => none
  | m => core m

/-- `re.findall` scan for the decimal pattern, fuelled by the input length
(every step consumes at least one character, so the fuel never runs out for
`decScanF l.length l`). -/
def decScanF : ℕ → List Char → List (List Char)
  | 0, _ => []
  | _ + 1, [] => []
  | fuel + 1, c :: cs =>
    match decAt (c :: cs) with
    | some gr => gr.1 :: decScanF fuel gr.2
    | none => decScanF fuel cs

/-- All decimal-number matches of a text. -/
def decScan (l : List Char) : List (List Char) := decScanF l.length l

/-- The decimal-protection pass: the matches are computed once on the text
after the abbreviation pass; the `i`-th match is replaced (first occurrence
only) by `__DEC{i}__` unless that key is somehow already present. -/
def decPass (st : List Char × List (List Char × List Char)) :
    List Char × List (List Char × List Char) :=
  (decScan st.1).enum.foldl
    (fun st2 p =>
      let ph := placeholderD p.1
      if (st2.2.find? (fun q => q.1 = ph)).isNone then
        (replaceFirst p.2 ph st2.1, st2.2 ++ [(ph, p.2)])
      else st2)
    st

/-- Protected text and placeholder map of `enforce_concise_response` after
stripping, abbreviation protection and decimal protection. -/
def protectedState (text : String) : List Char × List (List Char × List Char) :=
  decPass (abbrPass (pyStrip text.data))

/-- Sentence terminators `.!?`. -/
def isTerminal (c : Char) : Bool := c == '.' || c == '!' || c == '?'

/-- `re.split(r'(?<=[.!?])\s+', t)`: split before each maximal whitespace
run whose preceding character is a sentence terminator.  `acc` holds the
current piece reversed. -/
def sentSplitF : ℕ → List Char → List Char → List (List Char)
  | _, acc, [] => [acc.reverse]
  | 0, acc, l => [acc.reverse ++ l]
  | fuel + 1, acc, c :: cs =>
    if isWs c ∧ (acc.head?.map isTerminal).getD false then
      acc.reverse :: sentSplitF fuel [] (List.dropWhile isWs cs)
    else sentSplitF fuel (c :: acc) cs

def sentSplitAux (acc : List Char) (l : List Char) : List (List Char) :=
  sentSplitF l.length acc l

/-- The `.strip()`-and-filter sentence list of the protected text. -/
def protectedSentences (text : String) : List (List Char) :=
  ((sentSplitAux [] (protectedState text).1).map pyStrip).filter (fun s => !s.isEmpty)

/-- `' '.join(sentences)`. -/
def joinSp (ss : List (List Char)) : List Char := List.intercalate [' '] ss

/-- Restore all placeholders in map insertion order. -/
def restorePass (m : List (List Char × List Char)) (t : List Char) : List Char :=
  m.foldl (fun acc p => replaceAll p.1 p.2 acc) t

/-- Append a period when the text is non-empty and does not already end in
a sentence terminator. -/
def appendTerminal (t : List Char) : List Char :=
  if t ≠ [] ∧ ¬ (t.getLast?.map isTerminal).getD false then t ++ ['.'] else t

/-- `enforce_concise_response` from `app.py` (for `str` input; non-string
input is passed through by the source and is outside this model). -/
def enforce_concise_response (text : String) (maxSentences : ℕ) : String :=
  if (pyStrip text.data).isEmpty then text
  else
    let st := protectedState text
    let sentences := ((sentSplitAux [] st.1).map pyStrip).filter (fun s => !s.isEmpty)
    if sentences.length ≤ maxSentences then text
    else
      let truncated := joinSp (sentences.take maxSentences)
      let restored := restorePass st.2 truncated
      String.mk (appendTerminal restored)

/-! ## Predicates and spec-side definitions used by the theorems -/

/-- Index `i` holds a buyer message with an agreement-signal keyword and is
examinable by the loop (`i ≥ 1`). -/
def acceptIdx (h : List Message) (i : ℕ) : Bool :=
  decide (1 ≤ i) &&
    (match h[i]? with
     | some m => m.role == "user" && hasAgreementKeyword m.content
     | none => false)

/-- What the service loop returns when it stops at index `i`. -/
def resolveAtB (h : List Message) (i : ℕ) : ValidationResult :=
  match h[i]?, h[i - 1]? with
  | some cur, some prev => mkResult (resolveTermsB cur prev)
  | _, _ => noAgreement

/-- `acceptIdx` for the `app.py` message type. -/
def acceptIdxA (h : List MessageA) (i : ℕ) : Bool :=
  decide (1 ≤ i) &&
    (match h[i]? with
     | some m => m.role == "user" && hasAgreementKeyword m.content
     | none => false)

/-- Index `j` holds a seller message carrying at least two extractable terms
(a proposal the backward search can use). -/
def proposalIdx (h : List MessageA) (j : ℕ) : Bool :=
  match h[j]? with
  | some m => m.role == "assistant" && decide (2 ≤ countPresent (extractTriple m.content))
  | none => false

/-- The extracted triple of the message at index `j` (all-`None` out of range). -/
def extractAt (h : List MessageA) (j : ℕ) : AgreedTerms :=
  match h[j]? with
  | some m => extractTriple m.content
  | none => noTerms

/-- What the `app.py` loop returns when it stops at index `i`. -/
def resolveAtA (h : List MessageA) (i : ℕ) : ValidationResult × List MessageA :=
  match h[i]?, h[i - 1]? with
  | some cur, some prev => resolveTermsA h i cur prev
  | _, _ => (noAgreement, h)

/-- The message preceding index `i` is not a seller message carrying at
least two extractable terms (so step 2 of the resolution cannot fire). -/
def prevFew (h : List MessageA) (i : ℕ) : Bool :=
  match h[i - 1]? with
  | some m => !(m.role == "assistant" && decide (2 ≤ countPresent (extractTriple m.content)))
  | none => true

/-- A transcript whose acceptance message and its (buyer) predecessor carry
fewer than two terms, so resolution must search back to the seller proposal
at index 0. -/
def proposalHistory : List MessageA :=
  [⟨"assistant", "$50 and 30 days", none⟩, ⟨"user", "hello", none⟩,
   ⟨"user", "ok deal", none⟩]

/-- Structural validity of deal parameters, as `validate_parameters` checks
them (positive reservation, strictly ordered levels, for price and delivery). -/
abbrev ValidParams (p : DealParams) : Prop :=
  0 < p.price.reservation ∧ p.price.reservation < p.price.target ∧
    p.price.target < p.price.opening ∧
    0 < p.delivery.reservation ∧ p.delivery.reservation < p.delivery.target ∧
    p.delivery.target < p.delivery.opening

/-- Structural validity of agreed terms for the evaluator: either wholly
absent, or carrying a numeric price and delivery. -/
abbrev ValidTerms : Option AgreedTerms → Prop
  | none => True
  | some a => a.price.isSome = true ∧ a.delivery.isSome = true

/-- The grade thresholds exactly as the specification states them:
`A ≥ 90, B ≥ 80, C ≥ 70, D ≥ 60`, else `F`. -/
def specGrade (s : ℚ) : String :=
  if 90 ≤ s then "A" else if 80 ≤ s then "B" else if 70 ≤ s then "C"
  else if 60 ≤ s then "D" else "F"

/-- The characters of `f"{n/100:.2f}"` for `n` cents: integer digits, dot,
two fraction digits. -/
def fmtCents (n : ℕ) : List Char :=
  natChars (n / 100) ++ '.' :: [Char.ofNat (48 + n % 100 / 10), Char.ofNat (48 + n % 10)]

/-! # Theorems -/

/-! ## Rounding lemmas -/

theorem rhe_bounds (y : ℚ) : y - 1/2 ≤ (rhe y : ℚ) ∧ (rhe y : ℚ) ≤ y + 1/2 := by
  simp only [rhe]
  have h1 : ((⌊y⌋ : ℤ) : ℚ) ≤ y := Int.floor_le y
  have h2 : y < (⌊y⌋ : ℚ) + 1 := Int.lt_floor_add_one y
  split_ifs <;> constructor <;> push_cast <;> linarith

theorem round2_bounds (x : ℚ) : x - 1/200 ≤ round2 x ∧ round2 x ≤ x + 1/200 := by
  obtain ⟨h1, h2⟩ := rhe_bounds (x * 100)
  unfold round2
  constructor <;> [linarith; linarith]

theorem round1_bounds (x : ℚ) : x - 1/20 ≤ round1 x ∧ round1 x ≤ x + 1/20 := by
  obtain ⟨h1, h2⟩ := rhe_bounds (x * 10)
  unfold round1
  constructor <;> [linarith; linarith]

/-- One-decimal rounding stays inside integer bounds. -/
theorem round1_int_bounds (a b : ℤ) (x : ℚ) (ha : (a : ℚ) ≤ x) (hb : x ≤ (b : ℚ)) :
    (a : ℚ) ≤ round1 x ∧ round1 x ≤ (b : ℚ) := by
  obtain ⟨h1, h2⟩ := rhe_bounds (x * 10)
  have hl : 10 * a ≤ rhe (x * 10) := by
    have : ((10 * a : ℤ) : ℚ) < (rhe (x * 10) : ℚ) + 1 := by push_cast; linarith
    exact_mod_cast Int.lt_add_one_iff.mp (by exact_mod_cast this)
  have hr : rhe (x * 10) ≤ 10 * b := by
    have : (rhe (x * 10) : ℚ) < ((10 * b : ℤ) : ℚ) + 1 := by push_cast; linarith
    exact_mod_cast Int.lt_add_one_iff.mp (by exact_mod_cast this)
  unfold round1
  constructor
  · have : ((10 * a : ℤ) : ℚ) ≤ (rhe (x * 10) : ℚ) := by exact_mod_cast hl
    push_cast at this
    linarith
  · have : (rhe (x * 10) : ℚ) ≤ ((10 * b : ℤ) : ℚ) := by exact_mod_cast hr
    push_cast at this
    linarith

/-! ## C2: generator invariants -/

theorem genPriceB_inv (u r1 r2 : ℚ) (hu1 : 5 ≤ u) (hu2 : u ≤ 30)
    (h11 : 15/100 ≤ r1) (h12 : r1 ≤ 25/100) (h21 : 10/100 ≤ r2) (h22 : r2 ≤ 15/100) :
    gpbRes u r1 r2 < gpbTarget u r1 ∧ gpbTarget u r1 < gpOpening u ∧
      gpOpening u * (1/2) ≤ gpbRes u r1 r2 := by
  have eop : gpOpening u = round2 (u * 10) := rfl
  obtain ⟨ho1, ho2⟩ := round2_bounds (u * 10)
  rw [← eop] at ho1 ho2
  have hop1 : 9999/200 ≤ gpOpening u := by linarith
  have hop2 : gpOpening u ≤ 60001/200 := by linarith
  have et0 : gpTarget0 u r1 = round2 (gpOpening u * (1 - r1)) := rfl
  obtain ⟨ht1, ht2⟩ := round2_bounds (gpOpening u * (1 - r1))
  rw [← et0] at ht1 ht2
  have hmu : gpOpening u * (1 - r1) ≤ gpOpening u * (17/20) := by nlinarith
  have hml : gpOpening u * (3/4) ≤ gpOpening u * (1 - r1) := by nlinarith
  have ht0u : gpTarget0 u r1 ≤ gpOpening u * (17/20) + 1/200 := by linarith
  have ht0l : gpOpening u * (3/4) - 1/200 ≤ gpTarget0 u r1 := by linarith
  have hcond : ¬ (gpOpening u - 5 ≤ gpTarget0 u r1) := by
    intro hc
    nlinarith
  have etarget : gpbTarget u r1 = gpTarget0 u r1 := by
    unfold gpbTarget
    rw [if_neg hcond]
  have ht0pos : 0 < gpTarget0 u r1 := by linarith
  have er0 : gpRes0 u r1 r2 = round2 (gpTarget0 u r1 * (1 - r2)) := rfl
  obtain ⟨hr1, hr2⟩ := round2_bounds (gpTarget0 u r1 * (1 - r2))
  rw [← er0] at hr1 hr2
  have hmu2 : gpTarget0 u r1 * (1 - r2) ≤ gpTarget0 u r1 * (9/10) := by nlinarith
  have hml2 : gpTarget0 u r1 * (17/20) ≤ gpTarget0 u r1 * (1 - r2) := by nlinarith
  have hr0u : gpRes0 u r1 r2 ≤ gpTarget0 u r1 * (9/10) + 1/200 := by linarith
  have hr0l : gpTarget0 u r1 * (17/20) - 1/200 ≤ gpRes0 u r1 r2 := by linarith
  have emr : gpMinRes u = round2 (gpOpening u * (1/2)) := rfl
  obtain ⟨hm1, hm2⟩ := round2_bounds (gpOpening u * (1/2))
  rw [← emr] at hm1 hm2
  have hres1 : gpbRes1 u r1 r2 < gpTarget0 u r1 ∧
      gpOpening u * (1/2) ≤ gpbRes1 u r1 r2 := by
    unfold gpbRes1
    rw [etarget]
    split_ifs with hc
    · constructor <;> linarith
    · push_neg at hc
      constructor <;> linarith
  have hminlt : gpMinRes u < gpTarget0 u r1 := by linarith
  refine ⟨?_, ?_, ?_⟩
  · rw [etarget]
    unfold gpbRes
    exact max_lt hres1.1 hminlt
  · rw [etarget]; linarith
  · unfold gpbRes
    exact le_trans hres1.2 (le_max_left _ _)

set_option maxHeartbeats 1000000 in
theorem genPriceA_inv (u r1 r2 : ℚ) (hu1 : 5 ≤ u) (hu2 : u ≤ 30)
    (h11 : 15/100 ≤ r1) (h12 : r1 ≤ 25/100) (h21 : 10/100 ≤ r2) (h22 : r2 ≤ 15/100) :
    gpaRes u r1 r2 < gpaTarget u r1 ∧ gpaTarget u r1 < gpOpening u ∧
      gpOpening u * (1/2) ≤ gpaRes u r1 r2 := by
  have eop : gpOpening u = round2 (u * 10) := rfl
  obtain ⟨ho1, ho2⟩ := round2_bounds (u * 10)
  rw [← eop] at ho1 ho2
  have hop1 : 9999/200 ≤ gpOpening u := by linarith
  have hop2 : gpOpening u ≤ 60001/200 := by linarith
  have et0 : gpTarget0 u r1 = round2 (gpOpening u * (1 - r1)) := rfl
  obtain ⟨ht1, ht2⟩ := round2_bounds (gpOpening u * (1 - r1))
  rw [← et0] at ht1 ht2
  have hmu : gpOpening u * (1 - r1) ≤ gpOpening u * (17/20) := by nlinarith
  have hml : gpOpening u * (3/4) ≤ gpOpening u * (1 - r1) := by nlinarith
  have ht0u : gpTarget0 u r1 ≤ gpOpening u * (17/20) + 1/200 := by linarith
  have ht0l : gpOpening u * (3/4) - 1/200 ≤ gpTarget0 u r1 := by linarith
  have hcond : ¬ (gpOpening u - 5 ≤ gpTarget0 u r1) := by
    intro hc
    nlinarith
  have etarget : gpaTarget u r1 = gpTarget0 u r1 := by
    unfold gpaTarget
    rw [if_neg hcond]
  have ht0pos : 0 < gpTarget0 u r1 := by linarith
  have er0 : gpRes0 u r1 r2 = round2 (gpTarget0 u r1 * (1 - r2)) := rfl
  obtain ⟨hr1, hr2⟩ := round2_bounds (gpTarget0 u r1 * (1 - r2))
  rw [← er0] at hr1 hr2
  have hmu2 : gpTarget0 u r1 * (1 - r2) ≤ gpTarget0 u r1 * (9/10) := by nlinarith
  have hml2 : gpTarget0 u r1 * (17/20) ≤ gpTarget0 u r1 * (1 - r2) := by nlinarith
  have hr0u : gpRes0 u r1 r2 ≤ gpTarget0 u r1 * (9/10) + 1/200 := by linarith
  have hr0l : gpTarget0 u r1 * (17/20) - 1/200 ≤ gpRes0 u r1 r2 := by linarith
  have emr : gpMinRes u = round2 (gpOpening u * (1/2)) := rfl
  obtain ⟨hm1, hm2⟩ := round2_bounds (gpOpening u * (1/2))
  rw [← emr] at hm1 hm2
  have hres1 : gpaRes1 u r1 r2 < gpTarget0 u r1 ∧
      gpOpening u * (1/2) ≤ gpaRes1 u r1 r2 := by
    unfold gpaRes1
    rw [etarget]
    split_ifs with hc
    · obtain ⟨hs1, hs2⟩ :=
        round2_bounds (gpTarget0 u r1 - max 5 (gpTarget0 u r1 * (10/100)))
      rcases max_cases (5 : ℚ) (gpTarget0 u r1 * (10/100)) with ⟨he, hle⟩ | ⟨he, hle⟩ <;>
        rw [he] at hs1 hs2 ⊢ <;> constructor <;> linarith
    · push_neg at hc
      constructor <;> linarith
  have hminlt : gpMinRes u < gpTarget0 u r1 := by linarith
  refine ⟨?_, ?_, ?_⟩
  · rw [etarget]
    unfold gpaRes
    exact max_lt hres1.1 hminlt
  · rw [etarget]; linarith
  · unfold gpaRes
    exact le_trans hres1.2 (le_max_left _ _)

theorem genDeliveryB_inv (u r1 r2 : ℚ) (hu1 : 4 ≤ u) (hu2 : u ≤ 10)
    (h11 : 15/100 ≤ r1) (h12 : r1 ≤ 25/100) (h21 : 10/100 ≤ r2) (h22 : r2 ≤ 15/100) :
    gdbRes u r1 r2 < gdbTarget u r1 ∧ gdbTarget u r1 < gdOpening u := by
  have eop : gdOpening u = rhe (u * 10) := rfl
  obtain ⟨ho1, ho2⟩ := rhe_bounds (u * 10)
  rw [← eop] at ho1 ho2
  have hop1 : (79 : ℚ)/2 ≤ (gdOpening u : ℚ) := by linarith
  have hop2 : (gdOpening u : ℚ) ≤ 201/2 := by linarith
  have et0 : gdTarget0 u r1 = rhe ((gdOpening u : ℚ) * (1 - r1)) := rfl
  obtain ⟨ht1, ht2⟩ := rhe_bounds ((gdOpening u : ℚ) * (1 - r1))
  rw [← et0] at ht1 ht2
  have hopos : (0 : ℚ) < (gdOpening u : ℚ) := by linarith
  have hmu : (gdOpening u : ℚ) * (1 - r1) ≤ (gdOpening u : ℚ) * (17/20) := by nlinarith
  have hml : (gdOpening u : ℚ) * (3/4) ≤ (gdOpening u : ℚ) * (1 - r1) := by nlinarith
  have ht0u : (gdTarget0 u r1 : ℚ) ≤ (gdOpening u : ℚ) * (17/20) + 1/2 := by linarith
  have ht0l : (gdOpening u : ℚ) * (3/4) - 1/2 ≤ (gdTarget0 u r1 : ℚ) := by linarith
  have hcond : ¬ (gdOpening u - 3 ≤ gdTarget0 u r1) := by
    intro hc
    have : ((gdOpening u - 3 : ℤ) : ℚ) ≤ ((gdTarget0 u r1 : ℤ) : ℚ) := by exact_mod_cast hc
    push_cast at this
    nlinarith
  have etarget : gdbTarget u r1 = gdTarget0 u r1 := by
    unfold gdbTarget
    rw [if_neg hcond]
  refine ⟨?_, ?_⟩
  · unfold gdbRes
    rw [etarget]
    split_ifs with hc
    · linarith
    · push_neg at hc
      linarith
  · rw [etarget]
    have : (gdTarget0 u r1 : ℚ) < (gdOpening u : ℚ) := by nlinarith
    exact_mod_cast this

theorem genDeliveryA_inv (u r1 r2 : ℚ) (hu1 : 4 ≤ u) (hu2 : u ≤ 10)
    (h11 : 15/100 ≤ r1) (h12 : r1 ≤ 25/100) (h21 : 10/100 ≤ r2) (h22 : r2 ≤ 15/100) :
    gdaRes u r1 r2 < gdaTarget u r1 ∧ gdaTarget u r1 < gdOpening u := by
  have eop : gdOpening u = rhe (u * 10) := rfl
  obtain ⟨ho1, ho2⟩ := rhe_bounds (u * 10)
  rw [← eop] at ho1 ho2
  have hop1 : (79 : ℚ)/2 ≤ (gdOpening u : ℚ) := by linarith
  have hop2 : (gdOpening u : ℚ) ≤ 201/2 := by linarith
  have et0 : gdTarget0 u r1 = rhe ((gdOpening u : ℚ) * (1 - r1)) := rfl
  obtain ⟨ht1, ht2⟩ := rhe_bounds ((gdOpening u : ℚ) * (1 - r1))
  rw [← et0] at ht1 ht2
  have hopos : (0 : ℚ) < (gdOpening u : ℚ) := by linarith
  have hmu : (gdOpening u : ℚ) * (1 - r1) ≤ (gdOpening u : ℚ) * (17/20) := by nlinarith
  have hml : (gdOpening u : ℚ) * (3/4) ≤ (gdOpening u : ℚ) * (1 - r1) := by nlinarith
  have ht0u : (gdTarget0 u r1 : ℚ) ≤ (gdOpening u : ℚ) * (17/20) + 1/2 := by linarith
  have ht0l : (gdOpening u : ℚ) * (3/4) - 1/2 ≤ (gdTarget0 u r1 : ℚ) := by linarith
  have hcond : ¬ (gdOpening u - 3 ≤ gdTarget0 u r1) := by
    intro hc
    have : ((gdOpening u - 3 : ℤ) : ℚ) ≤ ((gdTarget0 u r1 : ℤ) : ℚ) := by exact_mod_cast hc
    push_cast at this
    nlinarith
  have etarget : gdaTarget u r1 = gdTarget0 u r1 := by
    unfold gdaTarget
    rw [if_neg hcond]
  have hz39 : (39 : ℤ) < gdOpening u := by
    have h39q : (39 : ℚ) < (gdOpening u : ℚ) := by linarith
    exact_mod_cast h39q
  have hop40 : (40 : ℚ) ≤ (gdOpening u : ℚ) := by
    have : (40 : ℤ) ≤ gdOpening u := hz39
    exact_mod_cast this
  have ht0big : (59 : ℚ)/2 ≤ (gdTarget0 u r1 : ℚ) := by nlinarith
  have ht0bigz : (30 : ℤ) ≤ gdTarget0 u r1 := by
    have h29 : (29 : ℤ) < gdTarget0 u r1 := by
      have : (29 : ℚ) < (gdTarget0 u r1 : ℚ) := by linarith
      exact_mod_cast this
    linarith
  refine ⟨?_, ?_⟩
  · unfold gdaRes
    rw [etarget]
    split_ifs with hc
    · have h3 : (3 : ℤ) ≤ max 3 (pyTrunc ((gdTarget0 u r1 : ℚ) * (10/100))) := le_max_left _ _
      apply max_lt
      · linarith
      · linarith
    · push_neg at hc
      linarith
  · rw [etarget]
    have : (gdTarget0 u r1 : ℚ) < (gdOpening u : ℚ) := by nlinarith
    exact_mod_cast this

/-- C2: for all draws in the documented `random.uniform` ranges (hence for
every seed), both copies of `generate_deal_parameters` return parameters
with `reservation < target < opening` for price and for delivery, and
`reservation_price ≥ 0.5 * opening_price`. -/
theorem claim_C2_generator_invariants (up r1p r2p ud r1d r2d : ℚ)
    (hu1 : 5 ≤ up) (hu2 : up ≤ 30)
    (hp11 : 15/100 ≤ r1p) (hp12 : r1p ≤ 25/100)
    (hp21 : 10/100 ≤ r2p) (hp22 : r2p ≤ 15/100)
    (hd1 : 4 ≤ ud) (hd2 : ud ≤ 10)
    (hd11 : 15/100 ≤ r1d) (hd12 : r1d ≤ 25/100)
    (hd21 : 10/100 ≤ r2d) (hd22 : r2d ≤ 15/100) :
    ((generate_deal_parameters up r1p r2p ud r1d r2d).price.reservation <
        (generate_deal_parameters up r1p r2p ud r1d r2d).price.target ∧
      (generate_deal_parameters up r1p r2p ud r1d r2d).price.target <
        (generate_deal_parameters up r1p r2p ud r1d r2d).price.opening ∧
      (generate_deal_parameters up r1p r2p ud r1d r2d).delivery.reservation <
        (generate_deal_parameters up r1p r2p ud r1d r2d).delivery.target ∧
      (generate_deal_parameters up r1p r2p ud r1d r2d).delivery.target <
        (generate_deal_parameters up r1p r2p ud r1d r2d).delivery.opening ∧
      (generate_deal_parameters up r1p r2p ud r1d r2d).price.opening * (1/2) ≤
        (generate_deal_parameters up r1p r2p ud r1d r2d).price.reservation) ∧
    ((generate_deal_parameters_app up r1p r2p ud r1d r2d).price.reservation <
        (generate_deal_parameters_app up r1p r2p ud r1d r2d).price.target ∧
      (generate_deal_parameters_app up r1p r2p ud r1d r2d).price.target <
        (generate_deal_parameters_app up r1p r2p ud r1d r2d).price.opening ∧
      (generate_deal_parameters_app up r1p r2p ud r1d r2d).delivery.reservation <
        (generate_deal_parameters_app up r1p r2p ud r1d r2d).delivery.target ∧
      (generate_deal_parameters_app up r1p r2p ud r1d r2d).delivery.target <
        (generate_deal_parameters_app up r1p r2p ud r1d r2d).delivery.opening ∧
      (generate_deal_parameters_app up r1p r2p ud r1d r2d).price.opening * (1/2) ≤
        (generate_deal_parameters_app up r1p r2p ud r1d r2d).price.reservation) := by
  obtain ⟨hb1, hb2, hb3⟩ := genPriceB_inv up r1p r2p hu1 hu2 hp11 hp12 hp21 hp22
  obtain ⟨hdb1, hdb2⟩ := genDeliveryB_inv ud r1d r2d hd1 hd2 hd11 hd12 hd21 hd22
  obtain ⟨ha1, ha2, ha3⟩ := genPriceA_inv up r1p r2p hu1 hu2 hp11 hp12 hp21 hp22
  obtain ⟨hda1, hda2⟩ := genDeliveryA_inv ud r1d r2d hd1 hd2 hd11 hd12 hd21 hd22
  exact ⟨⟨hb1, hb2, hdb1, hdb2, hb3⟩, ⟨ha1, ha2, hda1, hda2, ha3⟩⟩

/-- Witness for C2 at the concrete draws `u = 10`, `r1 = 0.2`, `r2 = 0.12`
(price) and `u = 7`, `r1 = 0.2`, `r2 = 0.12` (delivery). -/
theorem claim_C2_generator_invariants_witness :
    ((5 : ℚ) ≤ 10 ∧ (10 : ℚ) ≤ 30 ∧ (15/100 : ℚ) ≤ 2/10 ∧ (2/10 : ℚ) ≤ 25/100 ∧
      (10/100 : ℚ) ≤ 12/100 ∧ (12/100 : ℚ) ≤ 15/100 ∧
      (4 : ℚ) ≤ 7 ∧ (7 : ℚ) ≤ 10) ∧
    (generate_deal_parameters 10 (2/10) (12/100) 7 (2/10) (12/100)).price.reservation <
      (generate_deal_parameters 10 (2/10) (12/100) 7 (2/10) (12/100)).price.target := by
  refine ⟨by norm_num, ?_⟩
  exact (claim_C2_generator_invariants 10 (2/10) (12/100) 7 (2/10) (12/100)
    (by norm_num) (by norm_num) (by norm_num) (by norm_num) (by norm_num) (by norm_num)
    (by norm_num) (by norm_num) (by norm_num) (by norm_num) (by norm_num) (by norm_num)).1.1

/-! ## C3: the agreement scan of the service `validate_agreement` -/

theorem acceptIdx_bounds {h : List Message} {i : ℕ} (hi : acceptIdx h i = true) :
    1 ≤ i ∧ i < h.length := by
  unfold acceptIdx at hi
  rw [Bool.and_eq_true] at hi
  obtain ⟨h1, h2⟩ := hi
  refine ⟨by simpa using h1, ?_⟩
  cases e : h[i]? with
  | none => rw [e] at h2; simp at h2
  | some m => exact (List.getElem?_eq_some_iff.mp e).1

theorem acceptIdx_false_of_ge {h : List Message} {k : ℕ} (hk : h.length ≤ k) :
    acceptIdx h k = false := by
  unfold acceptIdx
  rw [List.getElem?_eq_none hk]
  simp

theorem validateLoopB_no (h : List Message) (n : ℕ)
    (hno : ∀ k, 1 ≤ k → k ≤ n → acceptIdx h k = false) :
    validateLoopB h n = noAgreement := by
  induction n with
  | zero => rfl
  | succ i ih =>
    have hk := hno (i + 1) (by omega) (le_refl _)
    have ih2 := ih (fun k h1 h2 => hno k h1 (by omega))
    cases hcur : h[i + 1]? with
    | none => simp only [validateLoopB, hcur]; exact ih2
    | some cur =>
      cases hprev : h[i]? with
      | none => simp only [validateLoopB, hcur, hprev]; exact ih2
      | some prev =>
        have hfalse : (cur.role == "user" && hasAgreementKeyword cur.content) = false := by
          unfold acceptIdx at hk
          rw [hcur] at hk
          simpa using hk
        simp only [validateLoopB, hcur, hprev, hfalse, Bool.false_eq_true, if_false]
        exact ih2

theorem validateLoopB_hit (h : List Message) (i n : ℕ)
    (hi : acceptIdx h i = true)
    (hafter : ∀ k, i < k → k ≤ n → acceptIdx h k = false)
    (hin : i ≤ n) :
    validateLoopB h n = resolveAtB h i := by
  induction n with
  | zero =>
    exfalso
    have := (acceptIdx_bounds hi).1
    omega
  | succ m ih =>
    by_cases hcase : i = m + 1
    · subst hcase
      have h2 := hi
      unfold acceptIdx at h2
      rw [Bool.and_eq_true] at h2
      obtain ⟨_, h2⟩ := h2
      cases hcur : h[m + 1]? with
      | none => rw [hcur] at h2; simp at h2
      | some cur =>
        rw [hcur] at h2
        have hlen : m + 1 < h.length := (List.getElem?_eq_some_iff.mp hcur).1
        have hlenp : m < h.length := by omega
        have hprev : h[m]? = some (h[m]) := List.getElem?_eq_getElem hlenp
        have h2' : (cur.role == "user" && hasAgreementKeyword cur.content) = true := h2
        simp only [validateLoopB, hcur, hprev, h2', if_true]
        unfold resolveAtB
        have hm : m + 1 - 1 = m := by omega
        rw [hm, hcur, hprev]
    · have hile : i ≤ m := by omega
      have hk := hafter (m + 1) (by omega) (le_refl _)
      have ih2 := ih (fun k h1 h2 => hafter k h1 (by omega)) hile
      cases hcur : h[m + 1]? with
      | none => simp only [validateLoopB, hcur]; exact ih2
      | some cur =>
        cases hprev : h[m]? with
        | none => simp only [validateLoopB, hcur, hprev]; exact ih2
        | some prev =>
          have hfalse : (cur.role == "user" && hasAgreementKeyword cur.content) = false := by
            unfold acceptIdx at hk
            rw [hcur] at hk
            simpa using hk
          simp only [validateLoopB, hcur, hprev, hfalse, Bool.false_eq_true, if_false]
          exact ih2

/-- C3 (amended): the service `validate_agreement` resolves at the most
recent buyer message *at index ≥ 1* bearing an agreement keyword — the
first transcript entry is never examined — and returns the all-missing
incomplete result exactly when no such message exists or when the
resolution at the most recent such message produced no terms. -/
theorem claim_C3_agreement_scan (h : List Message) :
    ((∀ k, acceptIdx h k = false) → validate_agreement h = noAgreement) ∧
    (∀ i, acceptIdx h i = true → (∀ k, i < k → acceptIdx h k = false) →
      validate_agreement h = resolveAtB h i) ∧
    (validate_agreement h = noAgreement ↔
      ((∀ k, acceptIdx h k = false) ∨
        ∃ i, acceptIdx h i = true ∧ (∀ k, i < k → acceptIdx h k = false) ∧
          resolveAtB h i = noAgreement)) := by
  have hn : ∀ i, acceptIdx h i = true → (∀ k, i < k → acceptIdx h k = false) →
      validate_agreement h = resolveAtB h i := by
    intro i hi hafter
    obtain ⟨h1, h2⟩ := acceptIdx_bounds hi
    exact validateLoopB_hit h i (h.length - 1) hi (fun k hk _ => hafter k hk) (by omega)
  refine ⟨?_, hn, ?_⟩
  · intro hall
    exact validateLoopB_no h _ (fun k _ _ => hall k)
  · constructor
    · intro hval
      by_cases hex : ∃ i, acceptIdx h i = true
      · obtain ⟨i0, hi0⟩ := hex
        set P : ℕ → Prop := fun k => acceptIdx h k = true with hP
        have hdec : DecidablePred P := fun k => by
          rw [hP]
          infer_instance
        have hble : i0 ≤ h.length := le_of_lt (acceptIdx_bounds hi0).2
        have hspec : P (Nat.findGreatest P h.length) :=
          Nat.findGreatest_spec (P := P) hble hi0
        have hgreat : ∀ k, Nat.findGreatest P h.length < k → acceptIdx h k = false := by
          intro k hk
          by_cases hkb : k ≤ h.length
          · by_contra hcon
            rw [Bool.not_eq_false] at hcon
            exact Nat.findGreatest_is_greatest hk hkb hcon
          · exact acceptIdx_false_of_ge (by omega)
        right
        refine ⟨Nat.findGreatest P h.length, hspec, hgreat, ?_⟩
        rw [← hn _ hspec hgreat]
        exact hval
      · left
        intro k
        rw [← Bool.not_eq_true]
        exact fun hc => hex ⟨k, hc⟩
    · rintro (hall | ⟨i, hi, hafter, hres⟩)
      · exact validateLoopB_no h _ (fun k _ _ => hall k)
      · rw [hn i hi hafter]
        exact hres

/-- C3 counterexample: in the single-message transcript whose only entry is
the buyer message "deal", a buyer message carries an agreement keyword, yet
`validate_agreement` returns the all-missing incomplete result (index 0 is
never examined), contradicting the claim's "exactly when" and its "examining
every buyer-authored message". -/
theorem claim_C3_counterexample :
    validate_agreement [⟨"user", "deal"⟩] = noAgreement ∧
    ([(⟨"user", "deal"⟩ : Message)][0]?).map Message.role = some "user" ∧
    hasAgreementKeyword "deal" = true := by
  refine ⟨rfl, rfl, by decide⟩

/-! ## C10: a zero extracted value counts as present -/

theorem validateLoopB_shape (h : List Message) (n : ℕ) :
    validateLoopB h n = noAgreement ∨ ∃ t, validateLoopB h n = mkResult t := by
  induction n with
  | zero => left; rfl
  | succ i ih =>
    cases hcur : h[i + 1]? with
    | none => simpa only [validateLoopB, hcur] using ih
    | some cur =>
      cases hprev : h[i]? with
      | none => simpa only [validateLoopB, hcur, hprev] using ih
      | some prev =>
        by_cases hc : (cur.role == "user" && hasAgreementKeyword cur.content) = true
        · right
          refine ⟨resolveTermsB cur prev, ?_⟩
          simp only [validateLoopB, hcur, hprev, hc, if_true]
        · rw [Bool.not_eq_true] at hc
          simpa only [validateLoopB, hcur, hprev, hc, Bool.false_eq_true, if_false] using ih

theorem missingOf_price_notMem (t : AgreedTerms) (hp : t.price.isSome = true) :
    "price" ∉ missingOf t := by
  unfold missingOf
  rw [if_pos hp]
  split_ifs <;> decide

theorem missingOf_delivery_notMem (t : AgreedTerms) (hp : t.delivery.isSome = true) :
    "delivery" ∉ missingOf t := by
  unfold missingOf
  rw [if_pos hp]
  split_ifs <;> decide

theorem missingOf_volume_notMem (t : AgreedTerms) (hp : t.volume.isSome = true) :
    "volume" ∉ missingOf t := by
  unfold missingOf
  rw [if_pos hp]
  split_ifs <;> decide

/-- C10: presence in the agreement detector is "is not `None`", never
truthiness: the missing-term list names exactly the `None` fields, validity
is emptiness of that list, and a field extracted as exactly `0` is not
listed as missing; concretely, a buyer acceptance of `$0` and `0 days`
resolves both fields (reaching the 2-of-3 threshold) with only `volume`
missing. -/
theorem claim_C10_zero_is_present (h : List Message) :
    ((validate_agreement h).missing_terms = missingOf (validate_agreement h).agreed_terms ∧
     (validate_agreement h).is_valid =
       (missingOf (validate_agreement h).agreed_terms).isEmpty ∧
     ((validate_agreement h).agreed_terms.price = some 0 →
       "price" ∉ (validate_agreement h).missing_terms) ∧
     ((validate_agreement h).agreed_terms.delivery = some 0 →
       "delivery" ∉ (validate_agreement h).missing_terms) ∧
     ((validate_agreement h).agreed_terms.volume = some 0 →
       "volume" ∉ (validate_agreement h).missing_terms)) ∧
    validate_agreement [⟨"assistant", "hi"⟩, ⟨"user", "i agree to $0 with 0 days"⟩] =
      ⟨false, ["volume"], ⟨some 0, some 0, none⟩⟩ := by
  constructor
  · have hshape := validateLoopB_shape h (h.length - 1)
    have hv : validate_agreement h = validateLoopB h (h.length - 1) := rfl
    rcases hshape with he | ⟨t, he⟩ <;> rw [hv, he]
    · refine ⟨by decide, by decide, ?_, ?_, ?_⟩ <;> intro hz <;> simp [noAgreement, noTerms] at hz
    · refine ⟨rfl, rfl, ?_, ?_, ?_⟩ <;> intro hz
      · exact missingOf_price_notMem t (by rw [show (mkResult t).agreed_terms = t from rfl] at hz; simp [hz])
      · exact missingOf_delivery_notMem t (by rw [show (mkResult t).agreed_terms = t from rfl] at hz; simp [hz])
      · exact missingOf_volume_notMem t (by rw [show (mkResult t).agreed_terms = t from rfl] at hz; simp [hz])
  · decide

/-! ## C4 and C8: the `app.py` detector, its backward search and its
cache mutation -/

theorem setCache_strip (h : List MessageA) (j : ℕ) (t : AgreedTerms) :
    (setCache h j t).map stripCache = h.map stripCache := by
  unfold setCache
  cases hj : h[j]? with
  | none => rfl
  | some m =>
    have hl : j < h.length := (List.getElem?_eq_some_iff.mp hj).1
    rw [List.map_set]
    apply List.ext_getElem?
    intro n
    rw [List.getElem?_set]
    by_cases hn : j = n
    · subst hn
      rw [if_pos rfl, if_pos (by simpa using hl), List.getElem?_map, hj]
      rfl
    · rw [if_neg hn]

theorem strip_getElem? {h2 h : List MessageA}
    (he : h2.map stripCache = h.map stripCache) (k : ℕ) :
    (h2[k]?).map stripCache = (h[k]?).map stripCache := by
  have hk := congrArg (fun l => l[k]?) he
  simpa [List.getElem?_map] using hk

theorem proposalIdx_congr {h2 h : List MessageA}
    (he : h2.map stripCache = h.map stripCache) (k : ℕ) :
    proposalIdx h2 k = proposalIdx h k := by
  have hk := strip_getElem? he k
  unfold proposalIdx
  cases e1 : h2[k]? with
  | none =>
    cases e2 : h[k]? with
    | none => rfl
    | some b => rw [e1, e2] at hk; simp at hk
  | some a =>
    cases e2 : h[k]? with
    | none => rw [e1, e2] at hk; simp at hk
    | some b =>
      rw [e1, e2] at hk
      simp only [Option.map_some', Option.some.injEq, stripCache, Message.mk.injEq] at hk
      dsimp only
      rw [hk.1, hk.2]

theorem extractAt_congr {h2 h : List MessageA}
    (he : h2.map stripCache = h.map stripCache) (k : ℕ) :
    extractAt h2 k = extractAt h k := by
  have hk := strip_getElem? he k
  unfold extractAt
  cases e1 : h2[k]? with
  | none =>
    cases e2 : h[k]? with
    | none => rfl
    | some b => rw [e1, e2] at hk; simp at hk
  | some a =>
    cases e2 : h[k]? with
    | none => rw [e1, e2] at hk; simp at hk
    | some b =>
      rw [e1, e2] at hk
      simp only [Option.map_some', Option.some.injEq, stripCache, Message.mk.injEq] at hk
      dsimp only
      rw [hk.2]

theorem acceptIdxA_bounds {h : List MessageA} {i : ℕ} (hi : acceptIdxA h i = true) :
    1 ≤ i ∧ i < h.length := by
  unfold acceptIdxA at hi
  rw [Bool.and_eq_true] at hi
  obtain ⟨h1, h2⟩ := hi
  refine ⟨by simpa using h1, ?_⟩
  cases e : h[i]? with
  | none => rw [e] at h2; simp at h2
  | some m => exact (List.getElem?_eq_some_iff.mp e).1

theorem acceptIdxA_false_of_ge {h : List MessageA} {k : ℕ} (hk : h.length ≤ k) :
    acceptIdxA h k = false := by
  unfold acceptIdxA
  rw [List.getElem?_eq_none hk]
  simp

theorem findNearestLoop_hit (j : ℕ) :
    ∀ (n : ℕ) (h : List MessageA), proposalIdx h j = true →
      (∀ k, j < k → k < n → proposalIdx h k = false) → j < n →
      (findNearestLoop h n).1 = some (extractAt h j, j) := by
  intro n
  induction n with
  | zero => intro h _ _ hj; omega
  | succ m ih =>
    intro h hj hbetween hjm
    by_cases hcase : j = m
    · subst hcase
      have h2 := hj
      unfold proposalIdx at h2
      cases hm : h[j]? with
      | none => rw [hm] at h2; simp at h2
      | some mm =>
        rw [hm] at h2
        rw [Bool.and_eq_true] at h2
        obtain ⟨hrole, hcnt⟩ := h2
        have hcnt' : 2 ≤ countPresent (extractTriple mm.content) := of_decide_eq_true hcnt
        simp only [findNearestLoop, hm, hrole, if_true]
        rw [if_pos hcnt']
        unfold extractAt
        rw [hm]
    · have hjm' : j < m := by omega
      have hkm := hbetween m (by omega) (by omega)
      cases hm : h[m]? with
      | none =>
        simp only [findNearestLoop, hm]
        exact ih h hj (fun k a b => hbetween k a (by omega)) hjm'
      | some mm =>
        by_cases hrole : (mm.role == "assistant") = true
        · have hcnt : decide (2 ≤ countPresent (extractTriple mm.content)) = false := by
            unfold proposalIdx at hkm
            rw [hm] at hkm
            simpa [hrole] using hkm
          have hcnt' : ¬ (2 ≤ countPresent (extractTriple mm.content)) :=
            of_decide_eq_false hcnt
          simp only [findNearestLoop, hm, hrole, if_true]
          rw [if_neg hcnt']
          have hstrip := setCache_strip h m (extractTriple mm.content)
          have ihres := ih (setCache h m (extractTriple mm.content))
            (by rw [proposalIdx_congr hstrip j]; exact hj)
            (fun k a b => by rw [proposalIdx_congr hstrip k]; exact hbetween k a (by omega))
            hjm'
          rw [ihres, extractAt_congr hstrip j]
        · rw [Bool.not_eq_true] at hrole
          simp only [findNearestLoop, hm, hrole, Bool.false_eq_true, if_false]
          exact ih h hj (fun k a b => hbetween k a (by omega)) hjm'

theorem validateLoopA_hit (h : List MessageA) (i n : ℕ)
    (hi : acceptIdxA h i = true)
    (hafter : ∀ k, i < k → k ≤ n → acceptIdxA h k = false)
    (hin : i ≤ n) :
    validateLoopA h n = resolveAtA h i := by
  induction n with
  | zero =>
    exfalso
    have := (acceptIdxA_bounds hi).1
    omega
  | succ m ih =>
    by_cases hcase : i = m + 1
    · subst hcase
      have h2 := hi
      unfold acceptIdxA at h2
      rw [Bool.and_eq_true] at h2
      obtain ⟨_, h2⟩ := h2
      cases hcur : h[m + 1]? with
      | none => rw [hcur] at h2; simp at h2
      | some cur =>
        rw [hcur] at h2
        have h2' : (cur.role == "user" && hasAgreementKeyword cur.content) = true := h2
        have hlen : m + 1 < h.length := (List.getElem?_eq_some_iff.mp hcur).1
        have hlenp : m < h.length := by omega
        have hprev : h[m]? = some (h[m]) := List.getElem?_eq_getElem hlenp
        simp only [validateLoopA, hcur, hprev, h2', if_true]
        unfold resolveAtA
        have hm : m + 1 - 1 = m := by omega
        rw [hm, hcur, hprev]
    · have hile : i ≤ m := by omega
      have hk := hafter (m + 1) (by omega) (le_refl _)
      have ih2 := ih (fun k h1 h2 => hafter k h1 (by omega)) hile
      cases hcur : h[m + 1]? with
      | none => simp only [validateLoopA, hcur]; exact ih2
      | some cur =>
        cases hprev : h[m]? with
        | none => simp only [validateLoopA, hcur, hprev]; exact ih2
        | some prev =>
          have hfalse : (cur.role == "user" && hasAgreementKeyword cur.content) = false := by
            unfold acceptIdxA at hk
            rw [hcur] at hk
            simpa using hk
          simp only [validateLoopA, hcur, hprev, hfalse, Bool.false_eq_true, if_false]
          exact ih2

/-- C4: when the accepting buyer message yields fewer than two terms and
its predecessor is not a usable seller proposal, the `app.py` detector
adopts the extracted terms of the nearest earlier seller message carrying
at least two extractable terms. -/
theorem claim_C4_backward_search (h : List MessageA) (i j : ℕ)
    (hacc : acceptIdxA h i = true)
    (hlast : ∀ k, i < k → acceptIdxA h k = false)
    (hfew : countPresent (extractAt h i) < 2)
    (hprevfew : prevFew h i = true)
    (hj : proposalIdx h j = true)
    (hji : j < i)
    (hnear : ∀ k, j < k → k < i → proposalIdx h k = false) :
    ((validate_agreement_app h).1).agreed_terms = extractAt h j := by
  obtain ⟨hi1, hilen⟩ := acceptIdxA_bounds hacc
  have hstop : validate_agreement_app h = resolveAtA h i :=
    validateLoopA_hit h i (h.length - 1) hacc (fun k hk _ => hlast k hk) (by omega)
  rw [hstop]
  unfold resolveAtA
  cases hcur : h[i]? with
  | none =>
    exfalso
    rw [List.getElem?_eq_none_iff] at hcur
    omega
  | some cur =>
    have hplen : i - 1 < h.length := by omega
    have hprev : h[i - 1]? = some (h[i - 1]) := List.getElem?_eq_getElem hplen
    rw [hprev]
    dsimp only [resolveTermsA]
    have hfew2 : countPresent (extractTriple cur.content) < 2 := by
      have hf := hfew
      unfold extractAt at hf
      rw [hcur] at hf
      exact hf
    rw [if_neg (by omega : ¬ (2 ≤ countPresent (extractTriple cur.content)))]
    have hstep2 : ((h[i - 1]).role == "assistant" &&
        decide (2 ≤ countPresent (extractTriple (h[i - 1]).content))) = false := by
      unfold prevFew at hprevfew
      rw [hprev] at hprevfew
      have hb : (!((h[i - 1]).role == "assistant" &&
          decide (2 ≤ countPresent (extractTriple (h[i - 1]).content)))) = true :=
        hprevfew
      cases hbv : ((h[i - 1]).role == "assistant" &&
          decide (2 ≤ countPresent (extractTriple (h[i - 1]).content))) with
      | false => rfl
      | true => rw [hbv] at hb; simp at hb
    rw [hstep2]
    simp only [Bool.false_eq_true, if_false]
    have hfst := findNearestLoop_hit j i h hj hnear hji
    rcases e : findNearestLoop h i with ⟨fst, h2⟩
    rw [e] at hfst
    simp only at hfst
    rw [hfst]
    rfl

/-- Witness for C4 on `proposalHistory`: acceptance at index 2 ("ok deal"),
buyer predecessor at index 1, seller proposal with price and delivery at
index 0. -/
theorem claim_C4_backward_search_witness :
    acceptIdxA proposalHistory 2 = true ∧
    countPresent (extractAt proposalHistory 2) < 2 ∧
    prevFew proposalHistory 2 = true ∧
    proposalIdx proposalHistory 0 = true ∧
    ((validate_agreement_app proposalHistory).1).agreed_terms = extractAt proposalHistory 0 := by
  refine ⟨by decide, by decide, by decide, by decide, ?_⟩
  apply claim_C4_backward_search proposalHistory 2 0
  · decide
  · intro k hk
    apply acceptIdxA_false_of_ge
    show proposalHistory.length ≤ k
    simp only [proposalHistory, List.length_cons, List.length_nil]
    omega
  · decide
  · decide
  · decide
  · omega
  · intro k h1 h2
    have hk1 : k = 1 := by omega
    subst hk1
    decide

theorem findNearestLoop_strip : ∀ (n : ℕ) (h : List MessageA),
    ((findNearestLoop h n).2).map stripCache = h.map stripCache := by
  intro n
  induction n with
  | zero => intro h; rfl
  | succ m ih =>
    intro h
    cases hm : h[m]? with
    | none =>
      simp only [findNearestLoop, hm]
      exact ih h
    | some mm =>
      by_cases hrole : (mm.role == "assistant") = true
      · simp only [findNearestLoop, hm, hrole, if_true]
        by_cases hcnt : 2 ≤ countPresent (extractTriple mm.content)
        · rw [if_pos hcnt]
          exact setCache_strip h m _
        · rw [if_neg hcnt]
          exact (ih _).trans (setCache_strip h m _)
      · rw [Bool.not_eq_true] at hrole
        simp only [findNearestLoop, hm, hrole, Bool.false_eq_true, if_false]
        exact ih h

theorem resolveTermsA_strip (h : List MessageA) (i : ℕ) (cur prev : MessageA) :
    ((resolveTermsA h i cur prev).2).map stripCache = h.map stripCache := by
  unfold resolveTermsA
  by_cases h1 : 2 ≤ countPresent (extractTriple cur.content)
  · rw [if_pos h1]
  · rw [if_neg h1]
    by_cases h2 : (prev.role == "assistant" &&
        decide (2 ≤ countPresent (extractTriple prev.content))) = true
    · simp only [h2, if_true]
    · rw [Bool.not_eq_true] at h2
      simp only [h2, Bool.false_eq_true, if_false]
      have hstrip := findNearestLoop_strip i h
      rcases e : findNearestLoop h i with ⟨fst, h2'⟩
      rw [e] at hstrip
      cases fst with
      | none => exact hstrip
      | some pr => exact hstrip

theorem validateLoopA_strip (h : List MessageA) : ∀ n : ℕ,
    ((validateLoopA h n).2).map stripCache = h.map stripCache := by
  intro n
  induction n with
  | zero => rfl
  | succ m ih =>
    cases hcur : h[m + 1]? with
    | none => simp only [validateLoopA, hcur]; exact ih
    | some cur =>
      cases hprev : h[m]? with
      | none => simp only [validateLoopA, hcur, hprev]; exact ih
      | some prev =>
        by_cases hc : (cur.role == "user" && hasAgreementKeyword cur.content) = true
        · simp only [validateLoopA, hcur, hprev, hc, if_true]
          exact resolveTermsA_strip h (m + 1) cur prev
        · rw [Bool.not_eq_true] at hc
          simp only [validateLoopA, hcur, hprev, hc, Bool.false_eq_true, if_false]
          exact ih

/-- C8 (amended): the `app.py` `validate_agreement` preserves the length of
the transcript and the role and content of every entry, but it is not
side-effect-free — the backward search attaches a `_cached_extracts` entry
to seller messages it examines (see the counterexample). -/
theorem claim_C8_amended (h : List MessageA) :
    ((validate_agreement_app h).2).length = h.length ∧
    ∀ k : ℕ, (((validate_agreement_app h).2)[k]?).map stripCache =
      (h[k]?).map stripCache := by
  have hs : ((validate_agreement_app h).2).map stripCache = h.map stripCache :=
    validateLoopA_strip h (h.length - 1)
  constructor
  · have hlen := congrArg List.length hs
    simpa using hlen
  · intro k
    exact strip_getElem? hs k

/-- C8 counterexample: running the `app.py` `validate_agreement` on
`proposalHistory` does not leave the transcript as it was — the fallback
search caches the extracts on the seller entry at index 0. -/
theorem claim_C8_counterexample :
    (validate_agreement_app proposalHistory).2 ≠ proposalHistory := by
  decide

/-! ## C5: the trade-off strategy band mapping -/

/-- C5 (amended): with `count` the number of buyer messages containing a
trade-off phrase (at most once per message) and `rounds` the number of
buyer messages, the score is 30 for `count = 0`, 50 for `count = 1`, 75 for
`count` in `2..⌊rounds·0.5⌋` (the comparison `count ≤ rounds*0.5` floors,
it does not take the ceiling), and 90 above that. -/
theorem claim_C5_trade_off_mapping (h : List Message) :
    (tradeOffCount h = 0 → score_trade_off_strategy h = 30) ∧
    (tradeOffCount h = 1 → score_trade_off_strategy h = 50) ∧
    (2 ≤ tradeOffCount h → 2 * tradeOffCount h ≤ userRounds h →
      score_trade_off_strategy h = 75) ∧
    (2 ≤ tradeOffCount h → userRounds h < 2 * tradeOffCount h →
      score_trade_off_strategy h = 90) := by
  unfold score_trade_off_strategy
  refine ⟨?_, ?_, ?_, ?_⟩
  · intro h0
    rw [if_pos h0]
  · intro h1
    rw [if_neg (by omega), if_pos h1]
  · intro h2 hle
    have hc : ((2 * tradeOffCount h : ℕ) : ℚ) ≤ ((userRounds h : ℕ) : ℚ) := by
      exact_mod_cast hle
    push_cast at hc
    have hq : (tradeOffCount h : ℚ) ≤ (userRounds h : ℚ) * (1/2) := by linarith
    rw [if_neg (by omega), if_neg (by omega), if_pos ⟨h2, hq⟩]
  · intro h2 hgt
    have hc : ((userRounds h : ℕ) : ℚ) < ((2 * tradeOffCount h : ℕ) : ℚ) := by
      exact_mod_cast hgt
    push_cast at hc
    have hq : ¬ ((tradeOffCount h : ℚ) ≤ (userRounds h : ℚ) * (1/2)) := by
      intro hcon
      linarith
    rw [if_neg (by omega), if_neg (by omega), if_neg (fun hand => hq hand.2)]

/-- C5 counterexample: three buyer messages, two of which carry a trade-off
phrase.  Here `count = 2` lies in `2..⌈rounds·0.5⌉ = 2..⌈1.5⌉ = 2..2`, so
the claim requires 75, but `_score_trade_off_strategy` returns 90 (the code
compares `2 ≤ 1.5`, which fails). -/
theorem claim_C5_counterexample :
    tradeOffCount [⟨"user", "volume"⟩, ⟨"user", "volume please"⟩, ⟨"user", "hi"⟩] = 2 ∧
    userRounds [⟨"user", "volume"⟩, ⟨"user", "volume please"⟩, ⟨"user", "hi"⟩] = 3 ∧
    ⌈(3 : ℚ) * (1/2)⌉ = 2 ∧
    score_trade_off_strategy
      [⟨"user", "volume"⟩, ⟨"user", "volume please"⟩, ⟨"user", "hi"⟩] = 90 ∧
    (90 : ℚ) ≠ 75 := by
  have hcnt : tradeOffCount
      [⟨"user", "volume"⟩, ⟨"user", "volume please"⟩, ⟨"user", "hi"⟩] = 2 := by decide
  have hrnd : userRounds
      [⟨"user", "volume"⟩, ⟨"user", "volume please"⟩, ⟨"user", "hi"⟩] = 3 := by decide
  refine ⟨hcnt, hrnd, ?_, ?_, by norm_num⟩
  · rw [Int.ceil_eq_iff]
    norm_num
  · unfold score_trade_off_strategy
    rw [hcnt, hrnd]
    norm_num

/-- Witness for C5 at four buyer messages with two trade-off hits
(`count = 2`, `rounds = 4`, so `2·count ≤ rounds` and the score is 75). -/
theorem claim_C5_trade_off_mapping_witness :
    2 ≤ tradeOffCount [⟨"user", "volume"⟩, ⟨"user", "bulk"⟩, ⟨"user", "hi"⟩, ⟨"user", "ok"⟩] ∧
    2 * tradeOffCount [⟨"user", "volume"⟩, ⟨"user", "bulk"⟩, ⟨"user", "hi"⟩, ⟨"user", "ok"⟩] ≤
      userRounds [⟨"user", "volume"⟩, ⟨"user", "bulk"⟩, ⟨"user", "hi"⟩, ⟨"user", "ok"⟩] ∧
    score_trade_off_strategy
      [⟨"user", "volume"⟩, ⟨"user", "bulk"⟩, ⟨"user", "hi"⟩, ⟨"user", "ok"⟩] = 75 :=
  ⟨by decide, by decide,
    (claim_C5_trade_off_mapping
      [⟨"user", "volume"⟩, ⟨"user", "bulk"⟩, ⟨"user", "hi"⟩, ⟨"user", "ok"⟩]).2.2.1
      (by decide) (by decide)⟩

/-! ## C1: evaluator boundedness -/

theorem score_trade_off_bounds (h : List Message) :
    0 ≤ score_trade_off_strategy h ∧ score_trade_off_strategy h ≤ 100 := by
  simp only [score_trade_off_strategy]
  split_ifs <;> norm_num

theorem redInner_le (ks : List String) (msg : String) :
    ∀ s : ℤ, ks.foldl
      (fun a k => if containsSub k.toList (pyLower msg.data) then a - 10 else a) s ≤ s := by
  induction ks with
  | nil => intro s; exact le_refl s
  | cons k ks ih =>
    intro s
    simp only [List.foldl_cons]
    refine le_trans (ih _) ?_
    split_ifs <;> omega

theorem redFlagPass_le (msgs : List String) : ∀ s : ℤ, redFlagPass msgs s ≤ s := by
  induction msgs with
  | nil => intro s; exact le_refl s
  | cons m ms ih =>
    intro s
    unfold redFlagPass at ih ⊢
    simp only [List.foldl_cons]
    exact le_trans (ih _) (redInner_le red_flag_keywords m s)

theorem bonusInner_le100 (ps : List (String × ℤ)) (msg : String) :
    ∀ s : ℤ, s ≤ 100 → ps.foldl
      (fun a p => if containsSub p.1.toList (pyLower msg.data) then min 100 (a + p.2) else a)
      s ≤ 100 := by
  induction ps with
  | nil => intro s hs; exact hs
  | cons p ps ih =>
    intro s hs
    simp only [List.foldl_cons]
    apply ih
    split_ifs
    · exact min_le_left _ _
    · exact hs

theorem bonusPass_le100 (msgs : List String) :
    ∀ s : ℤ, s ≤ 100 → bonusPass msgs s ≤ 100 := by
  induction msgs with
  | nil => intro s hs; exact hs
  | cons m ms ih =>
    intro s hs
    unfold bonusPass at ih ⊢
    simp only [List.foldl_cons]
    exact ih _ (bonusInner_le100 positive_indicators m s hs)

theorem score_professionalism_bounds (h : List Message) :
    0 ≤ score_professionalism h ∧ score_professionalism h ≤ 100 := by
  unfold score_professionalism
  constructor
  · exact le_max_left 0 _
  · apply max_le (by norm_num)
    exact bonusPass_le100 _ _ (le_trans (redFlagPass_le _ 85) (by norm_num))

theorem score_process_isSome (h : List Message) (hne : userMessages h ≠ []) :
    ∃ pc, score_process_management h = some pc := by
  simp only [score_process_management]
  have hlen : ((userMessages h).length : ℚ) ≠ 0 := by
    simpa using fun hc => hne (List.length_eq_zero.mp hc)
  rw [show pydiv (((userMessages h).map (fun m => (wordCount m.data : ℚ))).sum)
      ((userMessages h).length : ℚ) =
      some ((((userMessages h).map (fun m => (wordCount m.data : ℚ))).sum) /
        ((userMessages h).length : ℚ)) from by unfold pydiv; rw [if_neg hlen]]
  exact ⟨_, rfl⟩

theorem score_process_bounds (h : List Message) (pc : ℤ)
    (hpc : score_process_management h = some pc) : 0 ≤ pc ∧ pc ≤ 100 := by
  simp only [score_process_management] at hpc
  rcases hdv : pydiv (((userMessages h).map (fun m => (wordCount m.data : ℚ))).sum)
      ((userMessages h).length : ℚ) with _ | avg
  · rw [hdv] at hpc
    simp at hpc
  · rw [hdv] at hpc
    dsimp only at hpc
    simp only [Option.some.injEq] at hpc
    subst hpc
    constructor
    · exact le_min (by norm_num) (le_max_left 0 _)
    · exact min_le_left _ _

theorem score_creativity_bounds (h : List Message) :
    0 ≤ score_creativity_adaptability h ∧ score_creativity_adaptability h ≤ 100 := by
  simp only [score_creativity_adaptability]
  split_ifs <;> exact ⟨by decide, by decide⟩

theorem round1_combo_bounds (a b : ℚ) (ha : 30 ≤ a ∧ a ≤ 95) (hb : 30 ≤ b ∧ b ≤ 95) :
    0 ≤ round1 (a * (6/10) + b * (4/10)) ∧ round1 (a * (6/10) + b * (4/10)) ≤ 100 := by
  have hr := round1_int_bounds 0 100 (a * (6/10) + b * (4/10))
    (by push_cast; linarith [ha.1, ha.2, hb.1, hb.2])
    (by push_cast; linarith [ha.1, ha.2, hb.1, hb.2])
  constructor
  · have := hr.1
    push_cast at this
    linarith
  · have := hr.2
    push_cast at this
    linarith

theorem score_deal_quality_bounds (params : DealParams) (terms : Option AgreedTerms)
    (hp : ValidParams params) (ht : ValidTerms terms) :
    ∃ dq, score_deal_quality params terms = some dq ∧ 0 ≤ dq ∧ dq ≤ 100 ∧
      (terms = none → dq = 0) := by
  obtain ⟨hpr, hprt, hpto, hdr, hdrt, hdto⟩ := hp
  cases terms with
  | none => exact ⟨0, rfl, le_refl 0, by norm_num, fun _ => rfl⟩
  | some t =>
    obtain ⟨hps, hds⟩ := ht
    obtain ⟨fp, hfp⟩ := Option.isSome_iff_exists.mp hps
    obtain ⟨fd, hfd⟩ := Option.isSome_iff_exists.mp hds
    have hop : params.price.opening ≠ 0 := ne_of_gt (by linarith)
    have hodpos : (0 : ℤ) < params.delivery.opening := by linarith
    have hod : ((params.delivery.opening : ℤ) : ℚ) ≠ 0 :=
      ne_of_gt (by exact_mod_cast hodpos)
    have hpd1 : pydiv (params.price.opening - fp) params.price.opening =
        some ((params.price.opening - fp) / params.price.opening) := by
      unfold pydiv
      rw [if_neg hop]
    have hpd2 : pydiv (((params.delivery.opening - fd : ℤ) : ℚ))
        (((params.delivery.opening : ℤ) : ℚ)) =
        some (((params.delivery.opening - fd : ℤ) : ℚ) /
          ((params.delivery.opening : ℤ) : ℚ)) := by
      unfold pydiv
      rw [if_neg hod]
    simp only [score_deal_quality, hfp, hfd, hpd1, hpd2, Option.map_some', Option.some_bind]
    refine ⟨_, rfl, ?_, ?_, fun hc => absurd hc (Option.some_ne_none t)⟩
    · exact (round1_combo_bounds _ _ (by split_ifs <;> norm_num)
        (by split_ifs <;> norm_num)).1
    · exact (round1_combo_bounds _ _ (by split_ifs <;> norm_num)
        (by split_ifs <;> norm_num)).2

theorem score_to_grade_eq_spec (s : ℚ) : score_to_grade s = specGrade s := by
  unfold score_to_grade gradeThresholdsSorted specGrade
  by_cases h90 : (90 : ℚ) ≤ s
  · rw [List.find?_cons_of_pos _ (by simpa using h90)]
    simp [h90]
  · rw [List.find?_cons_of_neg _ (by simpa using h90)]
    by_cases h80 : (80 : ℚ) ≤ s
    · rw [List.find?_cons_of_pos _ (by simpa using h80)]
      simp [h90, h80]
    · rw [List.find?_cons_of_neg _ (by simpa using h80)]
      by_cases h70 : (70 : ℚ) ≤ s
      · rw [List.find?_cons_of_pos _ (by simpa using h70)]
        simp [h90, h80, h70]
      · rw [List.find?_cons_of_neg _ (by simpa using h70)]
        by_cases h60 : (60 : ℚ) ≤ s
        · rw [List.find?_cons_of_pos _ (by simpa using h60)]
          simp [h90, h80, h70, h60]
        · rw [List.find?_cons_of_neg _ (by simpa using h60)]
          by_cases h0 : (0 : ℚ) ≤ s
          · rw [List.find?_cons_of_pos _ (by simpa using h0)]
            simp [h90, h80, h70, h60]
          · rw [List.find?_cons_of_neg _ (by simpa using h0)]
            simp [h90, h80, h70, h60]

theorem calculate_overall_bounds (dq st pr pc cr : ℚ)
    (h1 : 0 ≤ dq ∧ dq ≤ 100) (h2 : 0 ≤ st ∧ st ≤ 100) (h3 : 0 ≤ pr ∧ pr ≤ 100)
    (h4 : 0 ≤ pc ∧ pc ≤ 100) (h5 : 0 ≤ cr ∧ cr ≤ 100) :
    0 ≤ calculate_overall_score dq st pr pc cr ∧
      calculate_overall_score dq st pr pc cr ≤ 100 := by
  unfold calculate_overall_score
  have hr := round1_int_bounds 0 100
    (dq * (33/100) + st * (28/100) + pr * (17/100) + pc * (11/100) + cr * (11/100))
    (by push_cast
        linarith [h1.1, h2.1, h3.1, h4.1, h5.1])
    (by push_cast
        linarith [h1.2, h2.2, h3.2, h4.2, h5.2])
  constructor
  · have := hr.1
    push_cast at this
    linarith
  · have := hr.2
    push_cast at this
    linarith

/-- C1 (amended): for every transcript containing at least one buyer
message, structurally valid parameters and structurally valid agreed terms,
`evaluate` succeeds, each of the five sub-scores and the overall score lie
in `[0, 100]`, the grade follows the stated thresholds, and wholly
empty/absent agreed terms give a Deal Quality of 0.  (On a transcript with
no buyer message the code raises `ZeroDivisionError`, see the
counterexample.) -/
theorem claim_C1_amended_evaluator_bounds (h : List Message) (params : DealParams)
    (terms : Option AgreedTerms) (hp : ValidParams params) (ht : ValidTerms terms)
    (huser : userMessages h ≠ []) :
    ∃ r, evaluate h params terms = some r ∧
      0 ≤ r.deal_quality ∧ r.deal_quality ≤ 100 ∧
      0 ≤ r.trade_off_strategy ∧ r.trade_off_strategy ≤ 100 ∧
      0 ≤ r.professionalism ∧ r.professionalism ≤ 100 ∧
      0 ≤ r.process_management ∧ r.process_management ≤ 100 ∧
      0 ≤ r.creativity_adaptability ∧ r.creativity_adaptability ≤ 100 ∧
      0 ≤ r.overall_score ∧ r.overall_score ≤ 100 ∧
      r.overall_grade = specGrade r.overall_score ∧
      (terms = none → r.deal_quality = 0) := by
  obtain ⟨dq, hdq, hdq0, hdq100, hdqnone⟩ := score_deal_quality_bounds params terms hp ht
  obtain ⟨pc, hpc⟩ := score_process_isSome h huser
  obtain ⟨hpc0, hpc100⟩ := score_process_bounds h pc hpc
  obtain ⟨hst0, hst100⟩ := score_trade_off_bounds h
  obtain ⟨hpr0, hpr100⟩ := score_professionalism_bounds h
  obtain ⟨hcr0, hcr100⟩ := score_creativity_bounds h
  have hprq : (0 : ℚ) ≤ (score_professionalism h : ℤ) ∧
      ((score_professionalism h : ℤ) : ℚ) ≤ 100 := by
    constructor <;> exact_mod_cast (by assumption)
  have hpcq : (0 : ℚ) ≤ (pc : ℤ) ∧ ((pc : ℤ) : ℚ) ≤ 100 := by
    constructor <;> exact_mod_cast (by assumption)
  have hcrq : (0 : ℚ) ≤ (score_creativity_adaptability h : ℤ) ∧
      ((score_creativity_adaptability h : ℤ) : ℚ) ≤ 100 := by
    constructor <;> exact_mod_cast (by assumption)
  have hov := calculate_overall_bounds dq (score_trade_off_strategy h)
    ((score_professionalism h : ℤ) : ℚ) ((pc : ℤ) : ℚ)
    ((score_creativity_adaptability h : ℤ) : ℚ)
    ⟨hdq0, hdq100⟩ ⟨hst0, hst100⟩ hprq hpcq hcrq
  simp only [evaluate, hdq, hpc]
  exact ⟨_, rfl, hdq0, hdq100, hst0, hst100, hprq.1, hprq.2, hpcq.1, hpcq.2,
    hcrq.1, hcrq.2, hov.1, hov.2, score_to_grade_eq_spec _, hdqnone⟩

/-- C1 counterexample: on a transcript with no buyer messages (here the
empty transcript) `_score_process_management` divides by
`len(user_messages) = 0` and `evaluate` raises `ZeroDivisionError` instead
of returning bounded scores. -/
theorem claim_C1_counterexample :
    evaluate [] ⟨⟨52.5, 42, 38.5⟩, ⟨60, 45, 35⟩⟩ none = none := by
  decide

/-- Witness for C1 on a one-buyer-message transcript with the sample
parameters of `evaluator.py` and complete agreed terms. -/
theorem claim_C1_amended_evaluator_bounds_witness :
    ValidParams ⟨⟨52.5, 42, 38.5⟩, ⟨60, 45, 35⟩⟩ ∧
    ValidTerms (some ⟨some 44, some 42, some 20000⟩) ∧
    userMessages [⟨"user", "ok"⟩] ≠ [] ∧
    ∃ r, evaluate [⟨"user", "ok"⟩] ⟨⟨52.5, 42, 38.5⟩, ⟨60, 45, 35⟩⟩
        (some ⟨some 44, some 42, some 20000⟩) = some r ∧
      0 ≤ r.overall_score ∧ r.overall_score ≤ 100 ∧
      r.overall_grade = specGrade r.overall_score := by
  refine ⟨by refine ⟨?_, ?_, ?_, ?_, ?_, ?_⟩ <;> norm_num, by exact ⟨rfl, rfl⟩,
    by decide, ?_⟩
  obtain ⟨r, hr, _, _, _, _, _, _, _, _, _, _, hov0, hov100, hgr, _⟩ :=
    claim_C1_amended_evaluator_bounds [⟨"user", "ok"⟩] ⟨⟨52.5, 42, 38.5⟩, ⟨60, 45, 35⟩⟩
      (some ⟨some 44, some 42, some 20000⟩)
      (by refine ⟨?_, ?_, ?_, ?_, ?_, ?_⟩ <;> norm_num) (by exact ⟨rfl, rfl⟩) (by decide)
  exact ⟨r, hr, hov0, hov100, hgr⟩

/-! ## C7: extractor totality on degenerate inputs -/

/-- C7: the extractors return the absent value (`None`) on text with no
matching pattern, on the empty string and on absent input — all three are
ordinary returns, not exceptions (the embedding is total by construction,
every fallible step returning an `Option`). -/
theorem claim_C7_extractors_total :
    extract_price (some "no numbers here") = none ∧
    extract_delivery (some "") = none ∧
    extract_volume none = none := by
  refine ⟨by decide, rfl, rfl⟩

/-! ## C6: the price-extraction round trip -/

theorem digitChar_isDigit (d : ℕ) (hd : d < 10) :
    isDigitCh (Char.ofNat (48 + d)) = true := by
  interval_cases d <;> decide

theorem digitVal_digitChar (d : ℕ) (hd : d < 10) :
    digitVal (Char.ofNat (48 + d)) = d := by
  interval_cases d <;> decide

theorem digitsVal_append_singleton (xs : List Char) (c : Char) :
    digitsVal (xs ++ [c]) = 10 * digitsVal xs + digitVal c := by
  unfold digitsVal
  rw [List.foldl_append]
  rfl

theorem natCharsF_spec (fuel : ℕ) : ∀ n, n ≤ fuel →
    natCharsF fuel n ≠ [] ∧ (∀ c ∈ natCharsF fuel n, isDigitCh c = true) ∧
      digitsVal (natCharsF fuel n) = n := by
  induction fuel with
  | zero =>
    intro n hn
    interval_cases n
    refine ⟨by simp [natCharsF], ?_, by decide⟩
    intro c hc
    simp only [natCharsF, List.mem_singleton] at hc
    subst hc
    decide
  | succ fuel ih =>
    intro n hn
    rw [natCharsF]
    split_ifs with h
    · refine ⟨by simp, ?_, ?_⟩
      · intro c hc
        simp only [List.mem_singleton] at hc
        subst hc
        exact digitChar_isDigit n h
      · have : digitsVal [Char.ofNat (48 + n)] = digitVal (Char.ofNat (48 + n)) := by
          unfold digitsVal
          simp [List.foldl]
        rw [this, digitVal_digitChar n h]
    · obtain ⟨hne, hdig, hval⟩ := ih (n / 10) (by omega)
      refine ⟨by simp, ?_, ?_⟩
      · intro c hc
        rw [List.mem_append] at hc
        rcases hc with hc | hc
        · exact hdig c hc
        · simp only [List.mem_singleton] at hc
          subst hc
          exact digitChar_isDigit (n % 10) (Nat.mod_lt _ (by omega))
      · rw [digitsVal_append_singleton, hval,
          digitVal_digitChar (n % 10) (Nat.mod_lt _ (by omega))]
        omega

theorem natChars_spec (n : ℕ) :
    natChars n ≠ [] ∧ (∀ c ∈ natChars n, isDigitCh c = true) ∧
      digitsVal (natChars n) = n :=
  natCharsF_spec n n le_rfl

theorem ws_not_digit {c : Char} (h : isWs c = true) : isDigitCh c = false := by
  unfold isWs at h
  repeat rw [Bool.or_eq_true] at h
  rcases h with ((((h | h) | h) | h) | h) | h <;>
    (have he := eq_of_beq h; subst he; decide)

theorem digit_not_ws {c : Char} (h : isDigitCh c = true) : isWs c = false := by
  cases hw : isWs c with
  | false => rfl
  | true => rw [ws_not_digit hw] at h; exact absurd h Bool.false_ne_true

theorem digit_ne_comma {c : Char} (h : isDigitCh c = true) : (c == ',') = false := by
  cases hbe : c == ',' with
  | false => rfl
  | true =>
    have he := eq_of_beq hbe
    subst he
    exact absurd h (by decide)

theorem grabRun_none (p : Char → Bool) (l : List Char)
    (h : ∀ c, l.head? = some c → p c = false) : grabRun p l = ([], l) := by
  cases l with
  | nil => rfl
  | cons c cs =>
    unfold grabRun
    rw [h c rfl]
    simp

theorem grabRun_append (p : Char → Bool) (a b : List Char)
    (ha : ∀ c ∈ a, p c = true) (hb : ∀ c, b.head? = some c → p c = false) :
    grabRun p (a ++ b) = (a, b) := by
  induction a with
  | nil =>
    simp only [List.nil_append]
    exact grabRun_none p b hb
  | cons x xs ih =>
    have hx : p x = true := ha x (List.mem_cons_self _ _)
    simp only [List.cons_append]
    unfold grabRun
    rw [hx]
    simp only [if_true]
    rw [ih (fun c hc => ha c (List.mem_cons_of_mem _ hc))]

theorem priceScan_skip (pre rest : List Char) (hpre : ∀ c ∈ pre, (c == '$') = false) :
    priceScan (pre ++ rest) = priceScan rest := by
  induction pre with
  | nil => rfl
  | cons c cs ih =>
    simp only [List.cons_append]
    have hstep : priceScan (c :: (cs ++ rest)) = priceScan (cs ++ rest) := by
      simp only [priceScan, hpre c (List.mem_cons_self _ _), Bool.false_eq_true, if_false]
    rw [hstep]
    exact ih (fun x hx => hpre x (List.mem_cons_of_mem _ hx))

theorem priceTail_fmt (n : ℕ) (suf : List Char)
    (hsuf : suf.head?.all (fun c => !isDigitCh c) = true) :
    priceTail (fmtCents n ++ suf) = some (fmtCents n) := by
  obtain ⟨hne, hdig, _⟩ := natChars_spec (n / 100)
  rcases hnc : natChars (n / 100) with _ | ⟨c, rest⟩
  · exact absurd hnc hne
  · have hcd : isDigitCh c = true := hdig c (by rw [hnc]; exact List.mem_cons_self _ _)
    have hrest : ∀ x ∈ rest, isDigitCh x = true :=
      fun x hx => hdig x (by rw [hnc]; exact List.mem_cons_of_mem _ hx)
    have hd1 : isDigitCh (Char.ofNat (48 + n % 100 / 10)) = true :=
      digitChar_isDigit _ (by omega)
    have hd2 : isDigitCh (Char.ofNat (48 + n % 10)) = true :=
      digitChar_isDigit _ (by omega)
    have hsufh : ∀ x, suf.head? = some x → isDigitCh x = false := by
      intro x hx
      cases suf with
      | nil => cases hx
      | cons s ss =>
        simp only [List.head?_cons, Option.some.injEq] at hx
        subst hx
        simpa using hsuf
    have hfmt : fmtCents n ++ suf = c :: (rest ++ '.' ::
        Char.ofNat (48 + n % 100 / 10) :: Char.ofNat (48 + n % 10) :: suf) := by
      unfold fmtCents
      rw [hnc]
      simp
    rw [hfmt]
    unfold priceTail
    rw [grabRun_none isWs _ (by
      intro x hx
      simp only [List.head?_cons, Option.some.injEq] at hx
      subst hx
      exact digit_not_ws hcd)]
    dsimp only
    rw [hcd, if_pos rfl]
    rw [grabRun_append _ rest ('.' :: Char.ofNat (48 + n % 100 / 10) ::
        Char.ofNat (48 + n % 10) :: suf)
      (fun x hx => by rw [hrest x hx]; rfl)
      (by
        intro x hx
        simp only [List.head?_cons, Option.some.injEq] at hx
        subst hx
        decide)]
    dsimp only
    rw [if_pos rfl]
    rw [show (Char.ofNat (48 + n % 100 / 10) :: Char.ofNat (48 + n % 10) :: suf) =
        [Char.ofNat (48 + n % 100 / 10), Char.ofNat (48 + n % 10)] ++ suf from rfl]
    rw [grabRun_append isDigitCh _ suf
      (by
        intro x hx
        simp only [List.mem_cons, List.not_mem_nil, or_false] at hx
        rcases hx with hx | hx <;> (subst hx; assumption))
      hsufh]
    dsimp only
    simp only [List.isEmpty_cons, Bool.false_eq_true, if_false]
    unfold fmtCents
    rw [hnc]

theorem parseDecimal_fmt (n : ℕ) : parseDecimal (fmtCents n) = (n : ℚ) / 100 := by
  obtain ⟨_, hdig, hval⟩ := natChars_spec (n / 100)
  have hd1 : isDigitCh (Char.ofNat (48 + n % 100 / 10)) = true :=
    digitChar_isDigit _ (by omega)
  have hd2 : isDigitCh (Char.ofNat (48 + n % 10)) = true :=
    digitChar_isDigit _ (by omega)
  unfold parseDecimal fmtCents
  rw [grabRun_append isDigitCh (natChars (n / 100)) _ hdig
    (by
      intro x hx
      simp only [List.head?_cons, Option.some.injEq] at hx
      subst hx
      decide)]
  dsimp only
  rw [if_pos rfl]
  rw [show ([Char.ofNat (48 + n % 100 / 10), Char.ofNat (48 + n % 10)] : List Char) =
      [Char.ofNat (48 + n % 100 / 10), Char.ofNat (48 + n % 10)] ++ [] from by simp]
  rw [grabRun_append isDigitCh _ []
    (by
      intro x hx
      simp only [List.mem_cons, List.not_mem_nil, or_false] at hx
      rcases hx with hx | hx <;> (subst hx; assumption))
    (by intro x hx; cases hx)]
  dsimp only
  have hpair : digitsVal [Char.ofNat (48 + n % 100 / 10), Char.ofNat (48 + n % 10)] =
      n % 100 := by
    unfold digitsVal
    simp only [List.foldl]
    rw [show (10 * 0 + digitVal (Char.ofNat (48 + n % 100 / 10))) =
        digitVal (Char.ofNat (48 + n % 100 / 10)) from by omega]
    rw [digitVal_digitChar _ (by omega : n % 100 / 10 < 10),
      digitVal_digitChar _ (by omega : n % 10 < 10)]
    omega
  rw [hval, hpair]
  have hmod : (100 * (n / 100) + n % 100 : ℕ) = n := Nat.div_add_mod n 100
  have hq : ((n : ℕ) : ℚ) = 100 * ((n / 100 : ℕ) : ℚ) + ((n % 100 : ℕ) : ℚ) := by
    exact_mod_cast hmod.symm
  rw [show ([Char.ofNat (48 + n % 100 / 10), Char.ofNat (48 + n % 10)] : List Char).length = 2
    from rfl]
  rw [hq]
  field_simp
  ring

theorem stripCommas_fmt (n : ℕ) : stripCommas (fmtCents n) = fmtCents n := by
  obtain ⟨_, hdig, _⟩ := natChars_spec (n / 100)
  unfold stripCommas
  rw [List.filter_eq_self]
  intro a ha
  unfold fmtCents at ha
  rw [List.mem_append] at ha
  rcases ha with ha | ha
  · rw [digit_ne_comma (hdig a ha)]
    rfl
  · simp only [List.mem_cons, List.not_mem_nil, or_false] at ha
    rcases ha with ha | ha | ha <;> subst ha
    · decide
    · rw [digit_ne_comma (digitChar_isDigit _ (by omega : n % 100 / 10 < 10))]
      rfl
    · rw [digit_ne_comma (digitChar_isDigit _ (by omega : n % 10 < 10))]
      rfl

/-- C6 (amended): embedding the formatted price string `f"${n/100:.2f}"` in
prose recovers `n/100` exactly, provided no `$` occurs before the embedded
occurrence and no digit immediately follows it (an earlier dollar amount
wins the leftmost search, and a directly appended digit extends the
fraction — see the counterexample); the comma-separated form
`"$15,000.00"` also extracts to `15000.0`. -/
theorem claim_C6_amended_price_roundtrip :
    (∀ (n : ℕ) (pre suf : List Char),
      (pre.all (fun c => !(c == '$'))) = true →
      (suf.head?.all (fun c => !isDigitCh c)) = true →
      extract_price (some (String.mk (pre ++ '$' :: fmtCents n ++ suf))) =
        some ((n : ℚ) / 100)) ∧
    extract_price (some "$15,000.00") = some 15000 := by
  constructor
  · intro n pre suf hpre hsuf
    have hpre' : ∀ c ∈ pre, (c == '$') = false := by
      intro c hc
      have := List.all_eq_true.mp hpre c hc
      simpa using this
    have hfalsy : strFalsy (some (String.mk (pre ++ '$' :: fmtCents n ++ suf))) = false := by
      show (pre ++ '$' :: fmtCents n ++ suf).isEmpty = false
      cases hp : pre ++ '$' :: fmtCents n ++ suf with
      | nil =>
        exfalso
        rcases List.append_eq_nil.mp hp with ⟨h1, _⟩
        rcases List.append_eq_nil.mp h1 with ⟨_, h2⟩
        exact absurd h2 (by simp)
      | cons a b => rfl
    unfold extract_price
    rw [hfalsy]
    simp only [Bool.false_eq_true, if_false, Option.getD_some]
    rw [show (String.mk (pre ++ '$' :: fmtCents n ++ suf)).toList =
        pre ++ '$' :: fmtCents n ++ suf from rfl]
    rw [List.append_assoc, List.cons_append]
    rw [priceScan_skip pre _ hpre']
    have hdollar : priceScan ('$' :: (fmtCents n ++ suf)) =
        match priceTail (fmtCents n ++ suf) with
        | some g => some (parseDecimal (stripCommas g))
        | none => priceScan (fmtCents n ++ suf) := by
      simp only [priceScan, beq_self_eq_true, if_true]
    rw [hdollar, priceTail_fmt n suf hsuf]
    dsimp only
    rw [stripCommas_fmt, parseDecimal_fmt]
  · have h1 : extract_price (some "$15,000.00") =
        some ((((15000 : ℕ)) : ℚ) + (((0 : ℕ)) : ℚ) / (10 : ℚ) ^ (2 : ℕ)) := by rfl
    rw [h1]
    norm_num

/-- C6 counterexample: the prose "$5 and " contains an earlier dollar
amount; embedding `f"${7:.2f}"` after it yields 5.0, not 7.0, so the claim
fails without a no-earlier-`$` restriction. -/
theorem claim_C6_counterexample :
    "$5 and " ++ String.mk ('$' :: fmtCents 700) = "$5 and $7.00" ∧
    extract_price (some ("$5 and " ++ String.mk ('$' :: fmtCents 700))) = some 5 ∧
    (5 : ℚ) ≠ 700 / 100 := by
  refine ⟨by decide, by decide, by norm_num⟩

/-- Witness for C6 at `n = 1550` cents embedded between "Total " and
" ok". -/
theorem claim_C6_amended_price_roundtrip_witness :
    ("Total ".data.all (fun c => !(c == '$'))) = true ∧
    (" ok".data.head?.all (fun c => !isDigitCh c)) = true ∧
    extract_price (some (String.mk ("Total ".data ++ '$' :: fmtCents 1550 ++ " ok".data))) =
      some ((1550 : ℚ) / 100) :=
  ⟨by decide, by decide,
    claim_C6_amended_price_roundtrip.1 1550 "Total ".data " ok".data (by decide) (by decide)⟩

/-! ## C9: `enforce_concise_response` branch behaviour -/

/-- C9: with the default limit of three sentences, the post-processor
returns the input unchanged when the protected sentence split yields at
most three sentences; otherwise it joins the first three, restores the
placeholders and appends terminal punctuation when missing. -/
theorem claim_C9_enforce_concise (text : String) :
    ((protectedSentences text).length ≤ 3 →
      enforce_concise_response text 3 = text) ∧
    (3 < (protectedSentences text).length →
      enforce_concise_response text 3 =
        String.mk (appendTerminal (restorePass (protectedState text).2
          (joinSp ((protectedSentences text).take 3))))) := by
  have hsent : ((sentSplitAux [] (protectedState text).1).map pyStrip).filter
      (fun s => !s.isEmpty) = protectedSentences text := rfl
  have hemp : (pyStrip text.data).isEmpty = true → protectedSentences text = [] := by
    intro hstrip
    rw [List.isEmpty_iff] at hstrip
    unfold protectedSentences protectedState
    rw [hstrip]
    rfl
  constructor
  · intro hle
    simp only [enforce_concise_response]
    split_ifs with h1 h2
    · rfl
    · rfl
    · rw [hsent] at h2
      exact absurd hle h2
  · intro hgt
    simp only [enforce_concise_response]
    split_ifs with h1 h2
    · rw [hemp h1] at hgt
      exact absurd hgt (by simp)
    · rw [hsent] at h2
      omega
    · rw [hsent]

/-- Witness for C9: a four-sentence reply is cut to its first three
sentences. -/
theorem claim_C9_enforce_concise_witness :
    3 < (protectedSentences "One. Two. Three. Four.").length ∧
    enforce_concise_response "One. Two. Three. Four." 3 = "One. Two. Three." := by
  refine ⟨by decide, ?_⟩
  rw [(claim_C9_enforce_concise "One. Two. Three. Four.").2 (by decide)]
  decide

/-- Witness for C3: a transcript whose last message is an accepting buyer
turn resolves exactly at that index. -/
theorem claim_C3_agreement_scan_witness :
    validate_agreement [⟨"assistant", "hi"⟩, ⟨"user", "i agree to the deal"⟩] =
      resolveAtB [⟨"assistant", "hi"⟩, ⟨"user", "i agree to the deal"⟩] 1 :=
  (claim_C3_agreement_scan _).2.1 1 (by decide)
    (fun k hk => acceptIdx_false_of_ge
      (by simp only [List.length_cons, List.length_nil]; omega))

/-- Witness for C10: an agreed price of zero dollars is not reported as a
missing term. -/
theorem claim_C10_zero_is_present_witness :
    (validate_agreement [⟨"assistant", "hi"⟩,
        ⟨"user", "i agree to $0 with 0 days"⟩]).agreed_terms.price = some 0 ∧
    "price" ∉ (validate_agreement [⟨"assistant", "hi"⟩,
        ⟨"user", "i agree to $0 with 0 days"⟩]).missing_terms :=
  ⟨by decide, (claim_C10_zero_is_present _).1.2.2.1 (by decide)⟩

end Negotiator
